import Mathlib

/-! Unscented Kalman filter: embedding of `src/src/ukf.cpp` and `src/src/tools.cpp`.

The C++ program works on `double`s.  The embedding is written over an arbitrary
linearly ordered field `α` with a floor function (so it runs on `ℚ`), and the
theorems are stated over `ℝ`: they describe the program in exact real
arithmetic, not its rounding behaviour.

What the program takes from outside the repository is a parameter of the
embedding, collected in `Env`:
* `<cmath>`: `sqrt`, `sin`, `cos`, `atan2` and the constant `M_PI`;
* Eigen: the Cholesky factorisation `llt()`.

Dense Eigen vectors and matrices of the fixed sizes the constructor sets up
(5, 7, 15) are functions on `Fin n` and Mathlib matrices.
-/

open Matrix

/-! ## External collaborators -/

/-- The status an Eigen decomposition reports through `info()`. -/
inductive ComputationInfo where
  | Success
  | NumericalIssue
  | NoConvergence
  | InvalidInput
  deriving DecidableEq, Repr

/-- The object returned by Eigen's `A.llt()` for a 7x7 matrix: the factor read
by `matrixL()` and the status read by `info()`. -/
structure LLT (α : Type) where
  matrixL : Matrix (Fin 7) (Fin 7) α
  info : ComputationInfo

/-- The functions and constants the program takes from `<cmath>` and Eigen. -/
structure Env (α : Type) [LinearOrderedField α] where
  sqrt : α → α
  sin : α → α
  cos : α → α
  /-- The two-argument arctangent, called as `atan2 y x`. -/
  atan2 : α → α → α
  M_PI : α
  M_PI_pos : 0 < M_PI
  /-- Eigen's `P_aug.llt()`. -/
  llt : Matrix (Fin 7) (Fin 7) α → LLT α

/-! ## Data model -/

/-- Modelled from the spec: the tag `MeasurementPackage::SensorType` is
declared in `measurement_package.h`, which is not among the sources.  The
program names the two tags `LASER` and `RADAR` (the spec's POSITION and
RANGE_BEARING); `OTHER` stands for any tag that is neither, which section 4.1 of
the specification calls an unrecognized measurement type. -/
inductive SensorType where
  | LASER
  | RADAR
  | OTHER
  deriving DecidableEq, Repr

/-- The record `MeasurementPackage`, with the members `ukf.cpp` reads: tag,
timestamp in microseconds and the raw readings, a dynamically sized vector (two
readings for laser, three for radar). -/
structure MeasurementPackage (α : Type) where
  sensor_type_ : SensorType
  timestamp_ : Int
  raw_measurements_ : List α

/-- Element access `raw_measurements_(i)`; reads 0 beyond the end, where the
program's behaviour is undefined. -/
def MeasurementPackage.raw {α : Type} [Zero α] (m : MeasurementPackage α) (i : Nat) : α :=
  m.raw_measurements_.getD i 0

/-- The members of class `UKF` that `ukf.cpp` reads and writes. -/
structure UKF (α : Type) where
  is_initialized_ : Bool
  use_laser_ : Bool
  use_radar_ : Bool
  x_ : Fin 5 → α
  P_ : Matrix (Fin 5) (Fin 5) α
  Xsig_pred_ : Matrix (Fin 5) (Fin 15) α
  time_us_ : Int
  std_a_ : α
  std_yawdd_ : α
  std_laspx_ : α
  std_laspy_ : α
  std_radr_ : α
  std_radphi_ : α
  std_radrd_ : α
  weights_ : Fin 15 → α
  n_x_ : Int
  n_aug_ : Int
  lambda_ : α

namespace UKF

variable {α : Type} [LinearOrderedField α]

/-- The constructor `UKF::UKF()`. -/
def ctor : UKF α :=
  let n_x_ : Int := 5
  let n_aug_ : Int := 7
  let lambda_ : α := ((3 - n_aug_ : Int) : α)
  { is_initialized_ := false
    use_laser_ := true
    use_radar_ := true
    x_ := fun _ => 0
    P_ := 1
    Xsig_pred_ := fun _ _ => 0
    time_us_ := 0
    std_a_ := 1.5
    std_yawdd_ := 0.5
    std_laspx_ := 0.15
    std_laspy_ := 0.15
    std_radr_ := 0.3
    std_radphi_ := 0.03
    std_radrd_ := 0.3
    weights_ := fun i =>
      if i.val = 0 then lambda_ / (lambda_ + (n_aug_ : α)) else 0.5 / (lambda_ + (n_aug_ : α))
    n_x_ := n_x_
    n_aug_ := n_aug_
    lambda_ := lambda_ }

/-- The loop `while (x > M_PI) x -= 2.*M_PI;`. -/
def subWhileGt [FloorRing α] (pi : α) (hpi : 0 < pi) (x : α) : α :=
  if x > pi then subWhileGt pi hpi (x - 2 * pi) else x
termination_by ⌈(x - pi) / (2 * pi)⌉.toNat
decreasing_by
  rename_i h
  have h2 : 0 < 2 * pi := by linarith
  have hy : 0 < (x - pi) / (2 * pi) := div_pos (by linarith) h2
  have e : (x - 2 * pi - pi) / (2 * pi) = (x - pi) / (2 * pi) - 1 := by
    field_simp
    ring
  rw [e, Int.ceil_sub_one]
  have := Int.ceil_pos.mpr hy
  omega

/-- The loop `while (x < -M_PI) x += 2.*M_PI;`. -/
def addWhileLt [FloorRing α] (pi : α) (hpi : 0 < pi) (x : α) : α :=
  if x < -pi then addWhileLt pi hpi (x + 2 * pi) else x
termination_by ⌈(-pi - x) / (2 * pi)⌉.toNat
decreasing_by
  rename_i h
  have h2 : 0 < 2 * pi := by linarith
  have hy : 0 < (-pi - x) / (2 * pi) := div_pos (by linarith) h2
  have e : (-pi - (x + 2 * pi)) / (2 * pi) = (-pi - x) / (2 * pi) - 1 := by
    field_simp
    ring
  rw [e, Int.ceil_sub_one]
  have := Int.ceil_pos.mpr hy
  omega

/-- The pair of loops that normalises an angular residual:
`while (d > M_PI) d -= 2.*M_PI; while (d < -M_PI) d += 2.*M_PI;`. -/
def normalizeAngle [FloorRing α] (E : Env α) (d : α) : α :=
  addWhileLt E.M_PI E.M_PI_pos (subWhileGt E.M_PI E.M_PI_pos d)

/-- Eigen's `A.inverse()`: the adjugate over the determinant.  For a singular
`A` the program's result is undefined; the embedding then follows Lean's
convention `0⁻¹ = 0`. -/
def inverse {n : Nat} (A : Matrix (Fin n) (Fin n) α) : Matrix (Fin n) (Fin n) α :=
  (A.det)⁻¹ • A.adjugate

/-- The augmented mean `x_aug` built by `Prediction`. -/
def x_aug (s : UKF α) : Fin 7 → α :=
  fun i => if h : i.val < 5 then s.x_ ⟨i.val, h⟩ else 0

/-- The augmented covariance `P_aug` built by `Prediction`. -/
def P_aug (s : UKF α) : Matrix (Fin 7) (Fin 7) α :=
  fun i j =>
    if h : i.val < 5 ∧ j.val < 5 then s.P_ ⟨i.val, h.1⟩ ⟨j.val, h.2⟩
    else if i.val = 5 ∧ j.val = 5 then s.std_a_ * s.std_a_
    else if i.val = 6 ∧ j.val = 6 then s.std_yawdd_ * s.std_yawdd_
    else 0

/-- The augmented sigma points `Xsig_aug` built by `Prediction`: column 0 is
`x_aug`, column `i+1` is `x_aug + c * L.col(i)` and column `i+1+n_aug_` is
`x_aug - c * L.col(i)`, for `c = sqrt(lambda_ + n_aug_)`. -/
def Xsig_aug (E : Env α) (s : UKF α) : Matrix (Fin 7) (Fin 15) α :=
  let L := (E.llt (P_aug s)).matrixL
  let sqrt_lambda_n_aug := E.sqrt (s.lambda_ + (s.n_aug_ : α))
  fun r c =>
    if c.val = 0 then x_aug s r
    else if h : c.val ≤ 7 then x_aug s r + sqrt_lambda_n_aug * L r ⟨c.val - 1, by omega⟩
    else x_aug s r - sqrt_lambda_n_aug * L r ⟨c.val - 1 - 7, by omega⟩

/-- The position `(px_p, py_p)` that the branch `fabs(yawd) > 1e-6` of
`Prediction` computes, before the noise is added: the curved path. -/
def curvedPath (E : Env α) (px py v yaw yawd delta_t : α) : α × α :=
  (px + v / yawd * (E.sin (yaw + yawd * delta_t) - E.sin yaw),
    py + v / yawd * (-E.cos (yaw + yawd * delta_t) + E.cos yaw))

/-- The position `(px_p, py_p)` that the `else` branch of `Prediction`
computes, before the noise is added: the straight line. -/
def straightPath (E : Env α) (px py v yaw delta_t : α) : α × α :=
  (px + v * E.cos yaw * delta_t, py + v * E.sin yaw * delta_t)

/-- The body of the loop "predict sigma points" of `Prediction`: one augmented
sigma point is carried through the motion model over `delta_t`. -/
def predictSigmaPoint (E : Env α) (delta_t : α) (xa : Fin 7 → α) : Fin 5 → α :=
  let px := xa 0
  let py := xa 1
  let v := xa 2
  let yaw := xa 3
  let yawd := xa 4
  let nu_a := xa 5
  let nu_yawdd := xa 6
  let px_p :=
    if |yawd| > 1e-6 then px + v / yawd * (E.sin (yaw + yawd * delta_t) - E.sin yaw)
    else px + v * E.cos yaw * delta_t
  let py_p :=
    if |yawd| > 1e-6 then py + v / yawd * (-E.cos (yaw + yawd * delta_t) + E.cos yaw)
    else py + v * E.sin yaw * delta_t
  let v_p := v
  let yaw_p := yaw + yawd * delta_t
  let yawd_p := yawd
  let px_p := px_p + 0.5 * nu_a * delta_t * delta_t * E.cos yaw
  let py_p := py_p + 0.5 * nu_a * delta_t * delta_t * E.sin yaw
  let v_p := v_p + nu_a * delta_t
  let yaw_p := yaw_p + 0.5 * nu_yawdd * delta_t * delta_t
  let yawd_p := yawd_p + nu_yawdd * delta_t
  ![px_p, py_p, v_p, yaw_p, yawd_p]

/-- The matrix `Xsig_pred_` after the loop "predict sigma points". -/
def predictSigmaPoints (E : Env α) (s : UKF α) (delta_t : α) : Matrix (Fin 5) (Fin 15) α :=
  fun r i => predictSigmaPoint E delta_t (fun k => Xsig_aug E s k i) r

/-- The residual `x_diff` of column `i` of `Xsig` against the mean `x`, its
heading component normalised. -/
def x_diff [FloorRing α] (E : Env α) (Xsig : Matrix (Fin 5) (Fin 15) α) (x : Fin 5 → α)
    (i : Fin 15) : Fin 5 → α :=
  let d : Fin 5 → α := fun r => Xsig r i - x r
  Function.update d 3 (normalizeAngle E (d 3))

/-- The method `UKF::Prediction`. -/
def Prediction [FloorRing α] (E : Env α) (s : UKF α) (delta_t : α) : UKF α :=
  let Xsig_pred := predictSigmaPoints E s delta_t
  let x : Fin 5 → α := fun r => ∑ i : Fin 15, s.weights_ i * Xsig_pred r i
  let P : Matrix (Fin 5) (Fin 5) α :=
    ∑ i : Fin 15, s.weights_ i • vecMulVec (x_diff E Xsig_pred x i) (x_diff E Xsig_pred x i)
  { s with Xsig_pred_ := Xsig_pred, x_ := x, P_ := P }

/-- The observation matrix `H` of `UpdateLidar`. -/
def H_laser : Matrix (Fin 2) (Fin 5) α :=
  fun i j => if (i.val = 0 ∧ j.val = 0) ∨ (i.val = 1 ∧ j.val = 1) then 1 else 0

/-- The measurement noise `R` of `UpdateLidar`. -/
def R_laser (s : UKF α) : Matrix (Fin 2) (Fin 2) α :=
  fun i j =>
    if i.val = 0 ∧ j.val = 0 then s.std_laspx_ * s.std_laspx_
    else if i.val = 1 ∧ j.val = 1 then s.std_laspy_ * s.std_laspy_
    else 0

/-- The method `UKF::UpdateLidar`. -/
def UpdateLidar (s : UKF α) (meas_package : MeasurementPackage α) : UKF α :=
  let z : Fin 2 → α := fun i => meas_package.raw i.val
  let H : Matrix (Fin 2) (Fin 5) α := H_laser
  let R := R_laser s
  let z_pred := H.mulVec s.x_
  let y := z - z_pred
  let S := H * s.P_ * Hᵀ + R
  let K := s.P_ * Hᵀ * inverse S
  { s with x_ := s.x_ + K.mulVec y, P_ := (1 - K * H) * s.P_ }

/-- The body of the first loop of `UpdateRadar`: a predicted sigma point is
carried into measurement space. -/
def radarSigmaPoint (E : Env α) (xs : Fin 5 → α) : Fin 3 → α :=
  let px := xs 0
  let py := xs 1
  let v := xs 2
  let yaw := xs 3
  let vx := E.cos yaw * v
  let vy := E.sin yaw * v
  let rho := E.sqrt (px * px + py * py)
  let phi := E.atan2 py px
  let rho_dot := if rho > 1e-6 then (px * vx + py * vy) / rho else 0
  ![rho, phi, rho_dot]

/-- The residual `z_diff` of a measurement-space point against `z_pred`, its
bearing component normalised. -/
def z_diff [FloorRing α] (E : Env α) (z z_pred : Fin 3 → α) : Fin 3 → α :=
  let d : Fin 3 → α := fun r => z r - z_pred r
  Function.update d 1 (normalizeAngle E (d 1))

/-- The measurement noise `R` of `UpdateRadar`. -/
def R_radar (s : UKF α) : Matrix (Fin 3) (Fin 3) α :=
  fun i j =>
    if i.val = 0 ∧ j.val = 0 then s.std_radr_ * s.std_radr_
    else if i.val = 1 ∧ j.val = 1 then s.std_radphi_ * s.std_radphi_
    else if i.val = 2 ∧ j.val = 2 then s.std_radrd_ * s.std_radrd_
    else 0

/-- The innovation covariance `S` of `UpdateRadar` (after `S += R`). -/
def S_radar [FloorRing α] (E : Env α) (s : UKF α) : Matrix (Fin 3) (Fin 3) α :=
  let Zsig : Matrix (Fin 3) (Fin 15) α := fun r i => radarSigmaPoint E (fun k => s.Xsig_pred_ k i) r
  let z_pred : Fin 3 → α := fun r => ∑ i : Fin 15, s.weights_ i * Zsig r i
  (∑ i : Fin 15, s.weights_ i •
      vecMulVec (z_diff E (fun r => Zsig r i) z_pred) (z_diff E (fun r => Zsig r i) z_pred))
    + R_radar s

/-- The method `UKF::UpdateRadar`. -/
def UpdateRadar [FloorRing α] (E : Env α) (s : UKF α) (meas_package : MeasurementPackage α) :
    UKF α :=
  let Zsig : Matrix (Fin 3) (Fin 15) α := fun r i => radarSigmaPoint E (fun k => s.Xsig_pred_ k i) r
  let z_pred : Fin 3 → α := fun r => ∑ i : Fin 15, s.weights_ i * Zsig r i
  let S := S_radar E s
  let Tc : Matrix (Fin 5) (Fin 3) α :=
    ∑ i : Fin 15, s.weights_ i •
      vecMulVec (x_diff E s.Xsig_pred_ s.x_ i) (z_diff E (fun r => Zsig r i) z_pred)
  let K := Tc * inverse S
  let z : Fin 3 → α := fun i => meas_package.raw i.val
  let zd := z_diff E z z_pred
  { s with x_ := s.x_ + K.mulVec zd, P_ := s.P_ - K * S * Kᵀ }

/-- The method `UKF::ProcessMeasurement`. -/
def ProcessMeasurement [FloorRing α] (E : Env α) (s : UKF α)
    (meas_package : MeasurementPackage α) : UKF α :=
  if !s.is_initialized_ then
    let x : Fin 5 → α :=
      if meas_package.sensor_type_ = SensorType.LASER then
        ![meas_package.raw 0, meas_package.raw 1, 0, 0, 0]
      else if meas_package.sensor_type_ = SensorType.RADAR then
        let rho := meas_package.raw 0
        let phi := meas_package.raw 1
        let rho_dot := meas_package.raw 2
        let px := rho * E.cos phi
        let py := rho * E.sin phi
        let vx := rho_dot * E.cos phi
        let vy := rho_dot * E.sin phi
        let v := E.sqrt (vx * vx + vy * vy)
        ![px, py, v, 0, 0]
      else s.x_
    { s with x_ := x, P_ := 1, time_us_ := meas_package.timestamp_, is_initialized_ := true }
  else
    let dt : α := ((meas_package.timestamp_ - s.time_us_ : Int) : α) / 1e6
    let s1 := { s with time_us_ := meas_package.timestamp_ }
    let s2 := Prediction E s1 dt
    if meas_package.sensor_type_ = SensorType.LASER ∧ s2.use_laser_ = true then
      UpdateLidar s2 meas_package
    else if meas_package.sensor_type_ = SensorType.RADAR ∧ s2.use_radar_ = true then
      UpdateRadar E s2 meas_package
    else s2

end UKF

namespace Tools

variable {α : Type} [LinearOrderedField α]

/-- The function `Tools::CalculateRMSE`; `sqrt` is the square root of
`<cmath>`, applied to each component. -/
def CalculateRMSE (sqrt : α → α) (estimations ground_truth : List (Fin 4 → α)) : Fin 4 → α :=
  let rmse : Fin 4 → α := ![0, 0, 0, 0]
  if estimations.isEmpty ∨ estimations.length ≠ ground_truth.length then
    rmse
  else
    let rmse := (List.zip estimations ground_truth).foldl
      (fun acc p => fun k => acc k + (p.1 k - p.2 k) * (p.1 k - p.2 k)) rmse
    let rmse : Fin 4 → α := fun k => rmse k / (estimations.length : α)
    fun k => sqrt (rmse k)

end Tools

/-! ## The real-number reading of the external functions -/

/-- The environment over `ℝ`: `<cmath>` read as the real functions, `M_PI` as
`π`, `atan2 y x` as the argument of `x + y i`; Eigen's `llt()` stays a
parameter. -/
noncomputable def realEnv (llt : Matrix (Fin 7) (Fin 7) ℝ → LLT ℝ) : Env ℝ where
  sqrt := Real.sqrt
  sin := Real.sin
  cos := Real.cos
  atan2 := fun y x => Complex.arg ⟨x, y⟩
  M_PI := Real.pi
  M_PI_pos := Real.pi_pos
  llt := llt

/-- An `llt()` that answers with the factor `L` and reports success. -/
def lltConst {α : Type} (L : Matrix (Fin 7) (Fin 7) α) : Matrix (Fin 7) (Fin 7) α → LLT α :=
  fun _ => ⟨L, ComputationInfo.Success⟩

/-- The time step in seconds between two timestamps in microseconds,
`(t - t0) / 10^6`, as the specification words it; `UKF.dt_eq_elapsed` shows that
it is the `dt` that `ProcessMeasurement` computes with `1e6`. -/
def elapsed {α : Type} [LinearOrderedField α] (t0 t : Int) : α :=
  ((t - t0 : Int) : α) / 10 ^ 6

/-! ## Predicates and concrete inputs used by the theorems -/

/-- The matrix `L` is the Cholesky factor of `A`: lower triangular with a
positive diagonal, and `L Lᵀ = A`. -/
def IsCholeskyFactor {α : Type} [LinearOrderedField α] {n : Nat}
    (L A : Matrix (Fin n) (Fin n) α) : Prop :=
  (∀ i j, i < j → L i j = 0) ∧ (∀ i, 0 < L i i) ∧ L * Lᵀ = A

/-- The Cholesky factor of the augmented covariance of a constructed estimator,
whose covariance is the identity. -/
def ctorCholesky {α : Type} [LinearOrderedField α] : Matrix (Fin 7) (Fin 7) α :=
  Matrix.diagonal ![1, 1, 1, 1, 1, 1.5, 0.5]

/-- The real environment whose `llt()` answers with `ctorCholesky`. -/
noncomputable def env0 : Env ℝ := realEnv (lltConst ctorCholesky)

/-- A constructed estimator that has already been initialized at time 0. -/
def ukfStarted {α : Type} [LinearOrderedField α] : UKF α :=
  { (UKF.ctor : UKF α) with is_initialized_ := true }

/-- A constructed, initialized estimator whose two sensors are switched off. -/
def ukfSensorsOff {α : Type} [LinearOrderedField α] : UKF α :=
  { (UKF.ctor : UKF α) with is_initialized_ := true, use_laser_ := false, use_radar_ := false }

/-- A constructed, initialized estimator with heading 3 and yaw rate 1. -/
def turningState {α : Type} [LinearOrderedField α] : UKF α :=
  { (UKF.ctor : UKF α) with is_initialized_ := true, x_ := ![0, 0, 0, 3, 1] }

/-- The spread `sqrt 3 * L` of the sigma points around the mean for the belief
`skewState`; `sqrt3` stands for the square root of 3 and `pi` for `π`. -/
def skewSpread {α : Type} [LinearOrderedField α] (sqrt3 pi : α) : Matrix (Fin 7) (Fin 7) α :=
  !![1, 0, 0, 0, 0, 0, 0;
     0, 1, 0, 0, 0, 0, 0;
     0, 0, 1, 0, 0, 0, 0;
     pi, pi, pi, pi, 0, 0, 0;
     0, 0, 0, 0, pi, 0, 0;
     0, 0, 0, 0, 0, 1.5 * sqrt3, 0;
     0, 0, 0, 0, 0, 0, 0.5 * sqrt3]

/-- The Cholesky factor of the augmented covariance of `skewState`. -/
def skewCholesky {α : Type} [LinearOrderedField α] (sqrt3 pi : α) : Matrix (Fin 7) (Fin 7) α :=
  fun i j => skewSpread sqrt3 pi i j / sqrt3

/-- A symmetric positive definite covariance whose heading is strongly
correlated with position and speed. -/
def skewCovariance {α : Type} [LinearOrderedField α] (pi : α) : Matrix (Fin 5) (Fin 5) α :=
  !![1 / 3, 0, 0, pi / 3, 0;
     0, 1 / 3, 0, pi / 3, 0;
     0, 0, 1 / 3, pi / 3, 0;
     pi / 3, pi / 3, pi / 3, 4 * pi ^ 2 / 3, 0;
     0, 0, 0, 0, pi ^ 2 / 3]

/-- A constructed, initialized estimator at the origin with speed 1, heading
0 and yaw rate 0, whose covariance is `skewCovariance`. -/
def skewState {α : Type} [LinearOrderedField α] (pi : α) : UKF α :=
  { (UKF.ctor : UKF α) with
    is_initialized_ := true, x_ := ![0, 0, 1, 0, 0], P_ := skewCovariance pi }

/-- An `llt()` that reports `NumericalIssue` and hands back the lower triangle
of its argument as the factor. -/
def lltFailing {α : Type} [Zero α] : Matrix (Fin 7) (Fin 7) α → LLT α :=
  fun A => ⟨fun i j => if j ≤ i then A i j else 0, ComputationInfo.NumericalIssue⟩

/-- A constructed, initialized estimator with speed 1 whose covariance is the
zero matrix, so that its augmented covariance is not positive definite. -/
def flatState {α : Type} [LinearOrderedField α] : UKF α :=
  { (UKF.ctor : UKF α) with is_initialized_ := true, x_ := ![0, 0, 1, 0, 0], P_ := 0 }

/-! ## Theorems -/

namespace UKF

variable {α : Type} [LinearOrderedField α]

/-- `Prediction` reads neither the reference time nor the initialized flag and
leaves both alone. -/
theorem Prediction_with_time [FloorRing α] (E : Env α) (s : UKF α) (t : Int) (dt : α) :
    Prediction E { s with time_us_ := t } dt = { Prediction E s dt with time_us_ := t } := rfl

/-- The time step computed by `ProcessMeasurement`, with `1e6` read as `10^6`. -/
theorem dt_eq_elapsed (t0 t : Int) : ((t - t0 : Int) : α) / 1e6 = elapsed t0 t := by
  have e : (1e6 : α) = 10 ^ 6 := by norm_num
  rw [elapsed, e]

/-- The branch of `ProcessMeasurement` taken by an initialized estimator. -/
theorem ProcessMeasurement_initialized [FloorRing α] (E : Env α) (s : UKF α)
    (m : MeasurementPackage α)
    (h : s.is_initialized_ = true) :
    ProcessMeasurement E s m =
      if m.sensor_type_ = SensorType.LASER ∧ s.use_laser_ = true then
        { UpdateLidar (Prediction E s (elapsed s.time_us_ m.timestamp_)) m with
          time_us_ := m.timestamp_ }
      else if m.sensor_type_ = SensorType.RADAR ∧ s.use_radar_ = true then
        { UpdateRadar E (Prediction E s (elapsed s.time_us_ m.timestamp_)) m with
          time_us_ := m.timestamp_ }
      else { Prediction E s (elapsed s.time_us_ m.timestamp_) with time_us_ := m.timestamp_ } := by
  unfold ProcessMeasurement
  rw [if_neg (by simp [h]), dt_eq_elapsed]
  rfl

/-- C1: on an uninitialized estimator a laser measurement `(x, y)` stamped `t`
sets the mean to `[x, y, 0, 0, 0]`, the covariance to the identity, the
reference time to `t` and the initialized flag, and leaves the predicted sigma
points as they were (no prediction, no correction). -/
theorem first_laser_measurement [FloorRing α] (E : Env α) (s : UKF α) (x y : α) (t : Int)
    (h : s.is_initialized_ = false) :
    ProcessMeasurement E s ⟨SensorType.LASER, t, [x, y]⟩ =
      { s with x_ := ![x, y, 0, 0, 0], P_ := 1, time_us_ := t, is_initialized_ := true } := by
  simp [ProcessMeasurement, h, MeasurementPackage.raw]

/-- Witness of C1: the measurement `(1.0, 2.0)` on a freshly constructed
estimator. -/
theorem first_laser_measurement_witness :
    (ctor : UKF ℝ).is_initialized_ = false ∧
    ProcessMeasurement env0 ctor ⟨SensorType.LASER, 7, [1.0, 2.0]⟩ =
      { (ctor : UKF ℝ) with
        x_ := ![1.0, 2.0, 0, 0, 0], P_ := 1, time_us_ := 7, is_initialized_ := true } :=
  ⟨rfl, first_laser_measurement env0 ctor 1.0 2.0 7 rfl⟩

/-- C2: on an uninitialized estimator a radar measurement `(rho, phi, rho_dot)`
sets the mean to `[rho cos phi, rho sin phi, v, 0, 0]` with
`v = sqrt((rho_dot cos phi)^2 + (rho_dot sin phi)^2) = |rho_dot|`, which is
never negative, and the covariance to the identity. -/
theorem first_radar_measurement (llt : Matrix (Fin 7) (Fin 7) ℝ → LLT ℝ) (s : UKF ℝ)
    (rho phi rho_dot : ℝ) (t : Int) (h : s.is_initialized_ = false) :
    (ProcessMeasurement (realEnv llt) s ⟨SensorType.RADAR, t, [rho, phi, rho_dot]⟩).x_ =
        ![rho * Real.cos phi, rho * Real.sin phi,
          Real.sqrt ((rho_dot * Real.cos phi) ^ 2 + (rho_dot * Real.sin phi) ^ 2), 0, 0] ∧
      Real.sqrt ((rho_dot * Real.cos phi) ^ 2 + (rho_dot * Real.sin phi) ^ 2) = |rho_dot| ∧
      0 ≤ |rho_dot| ∧
      (ProcessMeasurement (realEnv llt) s ⟨SensorType.RADAR, t, [rho, phi, rho_dot]⟩).P_ = 1 := by
  have hv : (rho_dot * Real.cos phi) ^ 2 + (rho_dot * Real.sin phi) ^ 2 = rho_dot ^ 2 := by
    have := Real.sin_sq_add_cos_sq phi
    nlinarith [this]
  refine ⟨?_, ?_, abs_nonneg _, ?_⟩
  · simp [ProcessMeasurement, h, MeasurementPackage.raw, realEnv, pow_two]
  · rw [hv, Real.sqrt_sq_eq_abs]
  · simp [ProcessMeasurement, h]

/-- Witness of C2: range 5.0, bearing 0, range rate 0 gives the mean
`[5.0, 0, 0, 0, 0]`. -/
theorem first_radar_measurement_witness :
    (ctor : UKF ℝ).is_initialized_ = false ∧
    (ProcessMeasurement env0 ctor ⟨SensorType.RADAR, 7, [5.0, 0, 0]⟩).x_ = ![5.0, 0, 0, 0, 0] ∧
    (ProcessMeasurement env0 ctor ⟨SensorType.RADAR, 7, [5.0, 0, 0]⟩).P_ = 1 := by
  have h := first_radar_measurement (lltConst ctorCholesky) ctor 5.0 0 0 7 rfl
  refine ⟨rfl, ?_, h.2.2.2⟩
  have h1 := h.1
  simp only [Real.cos_zero, Real.sin_zero, mul_one, mul_zero, zero_mul] at h1
  simpa [env0] using h1

/-- Counterexample to C3: a measurement of unrecognized type, stamped 5, on a
freshly constructed estimator changes the reference time from 0 to 5 and sets
the initialized flag. -/
theorem unrecognized_type_mutates :
    (ProcessMeasurement env0 ctor ⟨SensorType.OTHER, 5, []⟩).time_us_ = 5 ∧
    (ctor : UKF ℝ).time_us_ = 0 ∧
    (ProcessMeasurement env0 ctor ⟨SensorType.OTHER, 5, []⟩).is_initialized_ = true ∧
    (ctor : UKF ℝ).is_initialized_ = false ∧
    ProcessMeasurement env0 ctor ⟨SensorType.OTHER, 5, []⟩ ≠ ctor := by
  refine ⟨rfl, rfl, rfl, rfl, ?_⟩
  intro h
  have h2 := congrArg UKF.time_us_ h
  have h3 : (ProcessMeasurement env0 ctor ⟨SensorType.OTHER, 5, []⟩).time_us_ = 5 := rfl
  have h4 : (ctor : UKF ℝ).time_us_ = 0 := rfl
  rw [h3, h4] at h2
  exact absurd h2 (by decide)

/-- C3, amended: a measurement whose type is neither laser nor radar leaves
the mean and the predicted sigma points of an uninitialized estimator alone
but resets the covariance to the identity, sets the reference time and marks
the estimator initialized; on an initialized estimator it runs `Prediction`
for the elapsed time and advances the reference time, with no correction. -/
theorem unrecognized_type [FloorRing α] (E : Env α) (s : UKF α) (m : MeasurementPackage α)
    (hl : m.sensor_type_ ≠ SensorType.LASER) (hr : m.sensor_type_ ≠ SensorType.RADAR) :
    (s.is_initialized_ = false →
      ProcessMeasurement E s m =
        { s with P_ := 1, time_us_ := m.timestamp_, is_initialized_ := true }) ∧
    (s.is_initialized_ = true →
      ProcessMeasurement E s m =
        { Prediction E s (elapsed s.time_us_ m.timestamp_) with time_us_ := m.timestamp_ }) := by
  constructor
  · intro h
    simp [ProcessMeasurement, h, hl, hr]
  · intro h
    rw [ProcessMeasurement_initialized E s m h]
    simp [hl, hr]

/-- Witness of C3 (amended): an unrecognized measurement stamped 5, on a fresh
estimator and on a started one. -/
theorem unrecognized_type_witness :
    SensorType.OTHER ≠ SensorType.LASER ∧ SensorType.OTHER ≠ SensorType.RADAR ∧
    (ctor : UKF ℝ).is_initialized_ = false ∧
    ProcessMeasurement env0 ctor ⟨SensorType.OTHER, 5, []⟩ =
      { (ctor : UKF ℝ) with P_ := 1, time_us_ := 5, is_initialized_ := true } ∧
    (ukfStarted : UKF ℝ).is_initialized_ = true ∧
    ProcessMeasurement env0 ukfStarted ⟨SensorType.OTHER, 5, []⟩ =
      { Prediction env0 ukfStarted (elapsed 0 5) with time_us_ := 5 } :=
  ⟨by decide, by decide, rfl,
    (unrecognized_type env0 ctor ⟨SensorType.OTHER, 5, []⟩ (by decide) (by decide)).1 rfl, rfl,
    (unrecognized_type env0 ukfStarted ⟨SensorType.OTHER, 5, []⟩ (by decide) (by decide)).2 rfl⟩

/-- C4: on an initialized estimator a laser (radar) measurement stamped `t`
whose sensor is enabled yields exactly `Prediction` over
`(t - time_us_) / 10^6` seconds followed by `UpdateLidar` (`UpdateRadar`) on
that measurement, with the reference time set to `t`. -/
theorem initialized_enabled_measurement [FloorRing α] (E : Env α) (s : UKF α)
    (m : MeasurementPackage α)
    (h : s.is_initialized_ = true) :
    (m.sensor_type_ = SensorType.LASER → s.use_laser_ = true →
      ProcessMeasurement E s m =
        { UpdateLidar (Prediction E s (elapsed s.time_us_ m.timestamp_)) m with
          time_us_ := m.timestamp_ }) ∧
    (m.sensor_type_ = SensorType.RADAR → s.use_radar_ = true →
      ProcessMeasurement E s m =
        { UpdateRadar E (Prediction E s (elapsed s.time_us_ m.timestamp_)) m with
          time_us_ := m.timestamp_ }) := by
  rw [ProcessMeasurement_initialized E s m h]
  constructor
  · intro hl hu
    rw [if_pos ⟨hl, hu⟩]
  · intro hr hu
    rw [if_neg (by simp [hr]), if_pos ⟨hr, hu⟩]

/-- Witness of C4: a laser and a radar measurement stamped one second after the
reference time of a started estimator, both sensors enabled. -/
theorem initialized_enabled_measurement_witness :
    (ukfStarted : UKF ℝ).is_initialized_ = true ∧
    (ukfStarted : UKF ℝ).use_laser_ = true ∧ (ukfStarted : UKF ℝ).use_radar_ = true ∧
    ProcessMeasurement env0 ukfStarted ⟨SensorType.LASER, 1000000, [1, 2]⟩ =
      { UpdateLidar (Prediction env0 ukfStarted (elapsed 0 1000000))
          ⟨SensorType.LASER, 1000000, [1, 2]⟩ with time_us_ := 1000000 } ∧
    ProcessMeasurement env0 ukfStarted ⟨SensorType.RADAR, 1000000, [1, 2, 3]⟩ =
      { UpdateRadar env0 (Prediction env0 ukfStarted (elapsed 0 1000000))
          ⟨SensorType.RADAR, 1000000, [1, 2, 3]⟩ with time_us_ := 1000000 } :=
  ⟨rfl, rfl, rfl,
    (initialized_enabled_measurement env0 ukfStarted ⟨SensorType.LASER, 1000000, [1, 2]⟩ rfl).1
      rfl rfl,
    (initialized_enabled_measurement env0 ukfStarted ⟨SensorType.RADAR, 1000000, [1, 2, 3]⟩ rfl).2
      rfl rfl⟩

/-- C5: on an initialized estimator a laser (radar) measurement stamped `t`
that arrives while `use_laser_` (`use_radar_`) is false yields exactly
`Prediction` over the elapsed time, with the reference time set to `t`: mean
and covariance are those of `Prediction` alone. -/
theorem initialized_disabled_measurement [FloorRing α] (E : Env α) (s : UKF α)
    (m : MeasurementPackage α)
    (h : s.is_initialized_ = true) :
    (m.sensor_type_ = SensorType.LASER → s.use_laser_ = false →
      ProcessMeasurement E s m =
        { Prediction E s (elapsed s.time_us_ m.timestamp_) with time_us_ := m.timestamp_ }) ∧
    (m.sensor_type_ = SensorType.RADAR → s.use_radar_ = false →
      ProcessMeasurement E s m =
        { Prediction E s (elapsed s.time_us_ m.timestamp_) with time_us_ := m.timestamp_ }) := by
  rw [ProcessMeasurement_initialized E s m h]
  constructor
  · intro hl hu
    rw [if_neg (by simp [hu]), if_neg (by simp [hl])]
  · intro hr hu
    rw [if_neg (by simp [hr]), if_neg (by simp [hu])]

/-- Witness of C5: a laser and a radar measurement stamped one second after the
reference time of a started estimator, both sensors switched off. -/
theorem initialized_disabled_measurement_witness :
    (ukfSensorsOff : UKF ℝ).is_initialized_ = true ∧
    (ukfSensorsOff : UKF ℝ).use_laser_ = false ∧ (ukfSensorsOff : UKF ℝ).use_radar_ = false ∧
    ProcessMeasurement env0 ukfSensorsOff ⟨SensorType.LASER, 1000000, [1, 2]⟩ =
      { Prediction env0 ukfSensorsOff (elapsed 0 1000000) with time_us_ := 1000000 } ∧
    ProcessMeasurement env0 ukfSensorsOff ⟨SensorType.RADAR, 1000000, [1, 2, 3]⟩ =
      { Prediction env0 ukfSensorsOff (elapsed 0 1000000) with time_us_ := 1000000 } :=
  ⟨rfl, rfl, rfl,
    (initialized_disabled_measurement env0 ukfSensorsOff ⟨SensorType.LASER, 1000000, [1, 2]⟩
      rfl).1 rfl rfl,
    (initialized_disabled_measurement env0 ukfSensorsOff ⟨SensorType.RADAR, 1000000, [1, 2, 3]⟩
      rfl).2 rfl rfl⟩

/-! ### Symmetry of the covariance -/

/-- A weighted sum of outer products `d dᵀ` is symmetric. -/
theorem isSymm_sum_smul_vecMulVec_self {n : Nat} (w : Fin 15 → α) (d : Fin 15 → Fin n → α) :
    (∑ i : Fin 15, w i • vecMulVec (d i) (d i)).IsSymm := by
  apply Matrix.IsSymm.ext
  intro i j
  simp only [Matrix.sum_apply, Matrix.smul_apply, vecMulVec_apply, smul_eq_mul]
  exact Finset.sum_congr rfl (fun k _ => by ring)

/-- The covariance written by `Prediction` is symmetric, whatever the belief it
starts from. -/
theorem Prediction_P_isSymm [FloorRing α] (E : Env α) (s : UKF α) (dt : α) : (Prediction E s dt).P_.IsSymm :=
  isSymm_sum_smul_vecMulVec_self _ _

/-- The inverse of a symmetric matrix is symmetric. -/
theorem inverse_isSymm {n : Nat} {A : Matrix (Fin n) (Fin n) α} (h : A.IsSymm) :
    (inverse A).IsSymm := by
  unfold inverse Matrix.IsSymm
  rw [Matrix.transpose_smul, Matrix.adjugate_transpose, h.eq]

/-- The noise matrix of `UpdateLidar` is symmetric. -/
theorem R_laser_isSymm (s : UKF α) : (R_laser s).IsSymm := by
  apply Matrix.IsSymm.ext
  intro i j
  fin_cases i <;> fin_cases j <;> simp [R_laser]

/-- The noise matrix of `UpdateRadar` is symmetric. -/
theorem R_radar_isSymm (s : UKF α) : (R_radar s).IsSymm := by
  apply Matrix.IsSymm.ext
  intro i j
  fin_cases i <;> fin_cases j <;> simp [R_radar]

/-- The innovation covariance of `UpdateLidar` is symmetric when the covariance
is. -/
theorem S_laser_isSymm (s : UKF α) (h : s.P_.IsSymm) :
    ((H_laser : Matrix (Fin 2) (Fin 5) α) * s.P_ * H_laserᵀ + R_laser s).IsSymm := by
  apply Matrix.IsSymm.add _ (R_laser_isSymm s)
  unfold Matrix.IsSymm
  rw [Matrix.transpose_mul, Matrix.transpose_mul, Matrix.transpose_transpose, h.eq,
    Matrix.mul_assoc]

/-- For symmetric `P` and `T`, the matrix `(1 - P Hᵀ T H) P` is symmetric. -/
theorem isSymm_one_sub_gain_mul {k n : Nat} (P : Matrix (Fin n) (Fin n) α)
    (H : Matrix (Fin k) (Fin n) α) (T : Matrix (Fin k) (Fin k) α) (hP : P.IsSymm)
    (hT : T.IsSymm) : ((1 - P * Hᵀ * T * H) * P).IsSymm := by
  rw [Matrix.sub_mul, Matrix.one_mul]
  apply Matrix.IsSymm.sub hP
  unfold Matrix.IsSymm
  rw [Matrix.transpose_mul, Matrix.transpose_mul, Matrix.transpose_mul, Matrix.transpose_mul,
    Matrix.transpose_transpose, hP.eq, hT.eq]
  simp only [Matrix.mul_assoc]

/-- For symmetric `S`, the matrix `K S Kᵀ` is symmetric. -/
theorem isSymm_mul_mul_transpose {k n : Nat} (K : Matrix (Fin n) (Fin k) α)
    (S : Matrix (Fin k) (Fin k) α) (hS : S.IsSymm) : (K * S * Kᵀ).IsSymm := by
  unfold Matrix.IsSymm
  rw [Matrix.transpose_mul, Matrix.transpose_mul, Matrix.transpose_transpose, hS.eq,
    Matrix.mul_assoc]

/-- `UpdateLidar` keeps a symmetric covariance symmetric. -/
theorem UpdateLidar_P_isSymm (s : UKF α) (m : MeasurementPackage α) (h : s.P_.IsSymm) :
    (UpdateLidar s m).P_.IsSymm :=
  isSymm_one_sub_gain_mul s.P_ H_laser _ h (inverse_isSymm (S_laser_isSymm s h))

/-- The innovation covariance of `UpdateRadar` is symmetric. -/
theorem S_radar_isSymm [FloorRing α] (E : Env α) (s : UKF α) : (S_radar E s).IsSymm :=
  Matrix.IsSymm.add (isSymm_sum_smul_vecMulVec_self _ _) (R_radar_isSymm s)

/-- `UpdateRadar` keeps a symmetric covariance symmetric. -/
theorem UpdateRadar_P_isSymm [FloorRing α] (E : Env α) (s : UKF α) (m : MeasurementPackage α)
    (h : s.P_.IsSymm) : (UpdateRadar E s m).P_.IsSymm :=
  Matrix.IsSymm.sub h (isSymm_mul_mul_transpose _ _ (S_radar_isSymm E s))

/-- C6: for every belief, time step and measurement, the covariance after
`Prediction` followed by `UpdateLidar`, and after `Prediction` followed by
`UpdateRadar`, equals its own transpose. -/
theorem covariance_symmetric_after_cycle [FloorRing α] (E : Env α) (s : UKF α) (delta_t : α)
    (m : MeasurementPackage α) :
    ((UpdateLidar (Prediction E s delta_t) m).P_)ᵀ = (UpdateLidar (Prediction E s delta_t) m).P_ ∧
    ((UpdateRadar E (Prediction E s delta_t) m).P_)ᵀ =
      (UpdateRadar E (Prediction E s delta_t) m).P_ :=
  ⟨UpdateLidar_P_isSymm _ m (Prediction_P_isSymm E s delta_t),
    UpdateRadar_P_isSymm E _ m (Prediction_P_isSymm E s delta_t)⟩

/-! ### Positive semi-definiteness under the laser correction -/

/-- In a field `inverse` is Mathlib's matrix inverse. -/
theorem inverse_eq_inv {n : Nat} (A : Matrix (Fin n) (Fin n) α) : inverse A = A⁻¹ := by
  rw [inverse, Matrix.inv_def, Ring.inverse_eq_inv]

/-- The noise matrix of `UpdateLidar` is the diagonal matrix of the two
variances. -/
theorem R_laser_eq_diagonal (s : UKF α) :
    R_laser s = Matrix.diagonal ![s.std_laspx_ * s.std_laspx_, s.std_laspy_ * s.std_laspy_] := by
  ext i j
  fin_cases i <;> fin_cases j <;> simp [R_laser]

/-- The noise matrix of `UpdateLidar` is positive definite when both standard
deviations are non-zero. -/
theorem R_laser_posDef (s : UKF ℝ) (hx : s.std_laspx_ ≠ 0) (hy : s.std_laspy_ ≠ 0) :
    (R_laser s).PosDef := by
  rw [R_laser_eq_diagonal]
  apply Matrix.PosDef.diagonal
  intro i
  fin_cases i
  · exact mul_self_pos.mpr hx
  · exact mul_self_pos.mpr hy

/-- The innovation covariance `S = H P Hᵀ + R` of `UpdateLidar` is positive
definite for a positive semi-definite `P` and non-zero noise. -/
theorem S_laser_posDef (s : UKF ℝ) (hP : s.P_.PosSemidef) (hx : s.std_laspx_ ≠ 0)
    (hy : s.std_laspy_ ≠ 0) :
    ((H_laser : Matrix (Fin 2) (Fin 5) ℝ) * s.P_ * H_laserᵀ + R_laser s).PosDef := by
  have h1 := hP.mul_mul_conjTranspose_same (H_laser : Matrix (Fin 2) (Fin 5) ℝ)
  rw [Matrix.conjTranspose_eq_transpose_of_trivial] at h1
  exact Matrix.PosDef.posSemidef_add h1 (R_laser_posDef s hx hy)

/-- The Joseph form: when `K S = P Hᵀ` for `S = H P Hᵀ + R`, the matrix
`(1 - K H) P` equals `(1 - K H) P (1 - K H)ᵀ + K R Kᵀ`. -/
theorem joseph_form (P : Matrix (Fin 5) (Fin 5) ℝ) (H : Matrix (Fin 2) (Fin 5) ℝ)
    (R : Matrix (Fin 2) (Fin 2) ℝ) (K : Matrix (Fin 5) (Fin 2) ℝ)
    (hK : K * (H * P * Hᵀ + R) = P * Hᵀ) :
    (1 - K * H) * P = (1 - K * H) * P * (1 - K * H)ᵀ + K * R * Kᵀ := by
  have key : (1 - K * H) * P * Hᵀ = K * R := by
    rw [Matrix.mul_add] at hK
    rw [Matrix.sub_mul, Matrix.sub_mul, Matrix.one_mul, ← hK]
    simp only [Matrix.mul_assoc]
    abel
  rw [Matrix.transpose_sub, Matrix.transpose_one, Matrix.transpose_mul, Matrix.mul_sub,
    Matrix.mul_one, ← Matrix.mul_assoc ((1 - K * H) * P) Hᵀ Kᵀ, key]
  abel

/-- C7: for a symmetric positive semi-definite covariance `P` (and non-zero
laser noise, as the constructor sets it) the covariance `(I - K H) P` written by
`UpdateLidar`, with `K = P Hᵀ (H P Hᵀ + R)⁻¹`, is positive semi-definite. -/
theorem UpdateLidar_preserves_posSemidef (s : UKF ℝ) (m : MeasurementPackage ℝ)
    (hP : s.P_.PosSemidef) (hx : s.std_laspx_ ≠ 0) (hy : s.std_laspy_ ≠ 0) :
    (UpdateLidar s m).P_ =
        (1 - s.P_ * (H_laser : Matrix (Fin 2) (Fin 5) ℝ)ᵀ *
          ((H_laser : Matrix (Fin 2) (Fin 5) ℝ) * s.P_ * (H_laser : Matrix (Fin 2) (Fin 5) ℝ)ᵀ
            + R_laser s)⁻¹ * (H_laser : Matrix (Fin 2) (Fin 5) ℝ)) * s.P_ ∧
      (UpdateLidar s m).P_.PosSemidef := by
  have hR := (R_laser_posDef s hx hy).posSemidef
  have e : (UpdateLidar s m).P_ =
      (1 - s.P_ * (H_laser : Matrix (Fin 2) (Fin 5) ℝ)ᵀ *
          ((H_laser : Matrix (Fin 2) (Fin 5) ℝ) * s.P_ * (H_laser : Matrix (Fin 2) (Fin 5) ℝ)ᵀ
            + R_laser s)⁻¹ * (H_laser : Matrix (Fin 2) (Fin 5) ℝ)) * s.P_ := by
    simp only [UpdateLidar, inverse_eq_inv]
  refine ⟨e, ?_⟩
  rw [e]
  have hS := S_laser_posDef s hP hx hy
  generalize (H_laser : Matrix (Fin 2) (Fin 5) ℝ) = H at hS ⊢
  generalize R_laser s = R at hS hR ⊢
  have hdet : IsUnit (H * s.P_ * Hᵀ + R).det := (Matrix.isUnit_iff_isUnit_det _).mp hS.isUnit
  rw [joseph_form s.P_ H R _
    (by rw [Matrix.mul_assoc, Matrix.nonsing_inv_mul _ hdet, Matrix.mul_one])]
  have h1 := hP.mul_mul_conjTranspose_same (1 - s.P_ * Hᵀ * (H * s.P_ * Hᵀ + R)⁻¹ * H)
  have h2 := hR.mul_mul_conjTranspose_same (s.P_ * Hᵀ * (H * s.P_ * Hᵀ + R)⁻¹)
  rw [Matrix.conjTranspose_eq_transpose_of_trivial] at h1 h2
  exact h1.add h2

/-- Witness of C7: the constructed estimator, whose covariance is the identity
and whose laser noise is 0.15 in both directions. -/
theorem UpdateLidar_preserves_posSemidef_witness :
    (ctor : UKF ℝ).P_.PosSemidef ∧ (ctor : UKF ℝ).std_laspx_ ≠ 0 ∧
    (ctor : UKF ℝ).std_laspy_ ≠ 0 ∧
    (UpdateLidar (ctor : UKF ℝ) ⟨SensorType.LASER, 0, [1, 2]⟩).P_.PosSemidef :=
  ⟨Matrix.PosSemidef.one, by norm_num [ctor], by norm_num [ctor],
    (UpdateLidar_preserves_posSemidef ctor ⟨SensorType.LASER, 0, [1, 2]⟩ Matrix.PosSemidef.one
      (by norm_num [ctor]) (by norm_num [ctor])).2⟩

end UKF

namespace UKF

variable {α : Type} [LinearOrderedField α]

/-! ### The weighted mean of the sigma points -/

/-- A sum over the fifteen sigma points, written out. -/
theorem sum_fin15 (f : Fin 15 → α) :
    ∑ i : Fin 15, f i =
      f 0 + (f 1 + (f 2 + (f 3 + (f 4 + (f 5 + (f 6 + (f 7 + (f 8 + (f 9 + (f 10 + (f 11
        + (f 12 + (f 13 + f 14))))))))))))) := by
  simp only [Fin.sum_univ_succ, Fin.sum_univ_zero, add_zero]
  rfl

/-- The weights set by the constructor: `-4/3` for the centre, `1/6` for the
other fourteen sigma points. -/
theorem ctor_weights (i : Fin 15) :
    (ctor : UKF α).weights_ i = if i = 0 then -(4 / 3) else 1 / 6 := by
  have e : (i.val = 0) = (i = 0) := by
    apply propext
    rw [Fin.ext_iff]
    rfl
  simp only [ctor, e]
  split_ifs <;> norm_num

/-- A sum weighted by the constructor's weights, written out. -/
theorem sum_ctor_weights (f : Fin 15 → α) :
    ∑ i : Fin 15, (ctor : UKF α).weights_ i * f i =
      -(4 / 3) * f 0 + 1 / 6 * (f 1 + f 2 + f 3 + f 4 + f 5 + f 6 + f 7 + f 8 + f 9 + f 10
        + f 11 + f 12 + f 13 + f 14) := by
  rw [sum_fin15]
  simp only [ctor_weights]
  simp +decide
  ring

/-- Column 0 of `Xsig_aug` is the augmented mean. -/
theorem Xsig_aug_zero (E : Env α) (s : UKF α) (k : Fin 7) : Xsig_aug E s k 0 = x_aug s k := by
  simp [Xsig_aug]

/-- Columns 1 to 14 of `Xsig_aug`: the augmented mean plus (columns 1 to 7) or
minus (columns 8 to 14) the scaled columns of the factor. -/
theorem Xsig_aug_cols (E : Env α) (s : UKF α) (k : Fin 7) (c : α) (L : Matrix (Fin 7) (Fin 7) α)
    (hc : c = E.sqrt (s.lambda_ + (s.n_aug_ : α))) (hL : L = (E.llt (P_aug s)).matrixL) :
    (Xsig_aug E s k 1 = x_aug s k + c * L k 0) ∧
    (Xsig_aug E s k 2 = x_aug s k + c * L k 1) ∧
    (Xsig_aug E s k 3 = x_aug s k + c * L k 2) ∧
    (Xsig_aug E s k 4 = x_aug s k + c * L k 3) ∧
    (Xsig_aug E s k 5 = x_aug s k + c * L k 4) ∧
    (Xsig_aug E s k 6 = x_aug s k + c * L k 5) ∧
    (Xsig_aug E s k 7 = x_aug s k + c * L k 6) ∧
    (Xsig_aug E s k 8 = x_aug s k - c * L k 0) ∧
    (Xsig_aug E s k 9 = x_aug s k - c * L k 1) ∧
    (Xsig_aug E s k 10 = x_aug s k - c * L k 2) ∧
    (Xsig_aug E s k 11 = x_aug s k - c * L k 3) ∧
    (Xsig_aug E s k 12 = x_aug s k - c * L k 4) ∧
    (Xsig_aug E s k 13 = x_aug s k - c * L k 5) ∧
    (Xsig_aug E s k 14 = x_aug s k - c * L k 6) := by
  subst hc hL
  refine ⟨?_, ?_, ?_, ?_, ?_, ?_, ?_, ?_, ?_, ?_, ?_, ?_, ?_, ?_⟩ <;> rfl

/-- With the constructor's weights, the weighted mean of the augmented sigma
points is the augmented mean, whatever factor `llt()` returned. -/
theorem weighted_mean_Xsig_aug (E : Env α) (s : UKF α)
    (hw : s.weights_ = (ctor : UKF α).weights_) (k : Fin 7) :
    ∑ i : Fin 15, s.weights_ i * Xsig_aug E s k i = x_aug s k := by
  rw [hw, sum_ctor_weights]
  obtain ⟨p0, p1, p2, p3, p4, p5, p6, q0, q1, q2, q3, q4, q5, q6⟩ :=
    Xsig_aug_cols E s k _ _ rfl rfl
  rw [Xsig_aug_zero, p0, p1, p2, p3, p4, p5, p6, q0, q1, q2, q3, q4, q5, q6]
  ring



/-- The speed component of a propagated sigma point. -/
theorem predictSigmaPoint_two (E : Env α) (dt : α) (xa : Fin 7 → α) :
    predictSigmaPoint E dt xa 2 = xa 2 + xa 5 * dt := rfl

/-- The heading component of a propagated sigma point. -/
theorem predictSigmaPoint_three (E : Env α) (dt : α) (xa : Fin 7 → α) :
    predictSigmaPoint E dt xa 3 = xa 3 + xa 4 * dt + 0.5 * xa 6 * dt * dt := rfl

/-- The yaw-rate component of a propagated sigma point. -/
theorem predictSigmaPoint_four (E : Env α) (dt : α) (xa : Fin 7 → α) :
    predictSigmaPoint E dt xa 4 = xa 4 + xa 6 * dt := rfl

/-- Over a zero time step the motion model returns the state part of the
augmented sigma point. -/
theorem predictSigmaPoint_zero_dt (E : Env α) (xa : Fin 7 → α) :
    predictSigmaPoint E 0 xa = ![xa 0, xa 1, xa 2, xa 3, xa 4] := by
  simp [predictSigmaPoint]

/-- The loops leave an angle that is already inside `[-π, π]` alone. -/
theorem normalizeAngle_of_mem [FloorRing α] (E : Env α) (d : α) (h1 : -E.M_PI ≤ d) (h2 : d ≤ E.M_PI) :
    normalizeAngle E d = d := by
  unfold normalizeAngle
  rw [subWhileGt, if_neg (not_lt.mpr h2), addWhileLt, if_neg (not_lt.mpr h1)]

/-- The heading component of the mean written by `Prediction` is
`yaw + yawd * delta_t`: the motion model is linear in that component, and no
wrapping is applied to the mean. -/
theorem Prediction_mean_heading [FloorRing α] (E : Env α) (s : UKF α) (dt : α)
    (hw : s.weights_ = (ctor : UKF α).weights_) :
    (Prediction E s dt).x_ 3 = s.x_ 3 + s.x_ 4 * dt := by
  have e : (Prediction E s dt).x_ 3 =
      ∑ i : Fin 15, s.weights_ i * Xsig_aug E s 3 i
        + (∑ i : Fin 15, s.weights_ i * Xsig_aug E s 4 i) * dt
        + 0.5 * (∑ i : Fin 15, s.weights_ i * Xsig_aug E s 6 i) * dt * dt := by
    simp only [Prediction, predictSigmaPoints, predictSigmaPoint_three, Finset.sum_mul,
      Finset.mul_sum, ← Finset.sum_add_distrib]
    exact Finset.sum_congr rfl (fun i _ => by ring)
  rw [e, weighted_mean_Xsig_aug E s hw, weighted_mean_Xsig_aug E s hw,
    weighted_mean_Xsig_aug E s hw]
  simp +decide [x_aug]
  rfl

end UKF

namespace UKF

/-! ### Positive semi-definiteness and the prediction stage -/

/-- The quadratic form of an outer product `d dᵀ` is a square. -/
theorem quadForm_vecMulVec_self {n : Nat} (d x : Fin n → ℝ) :
    x ⬝ᵥ (vecMulVec d d) *ᵥ x = (x ⬝ᵥ d) ^ 2 := by
  have e : (vecMulVec d d) *ᵥ x = (d ⬝ᵥ x) • d := by
    ext a
    simp only [Matrix.mulVec, Matrix.dotProduct, vecMulVec_apply, Pi.smul_apply, smul_eq_mul,
      Finset.sum_mul, Finset.mul_sum]
    exact Finset.sum_congr rfl (fun b _ => by ring)
  rw [e, Matrix.dotProduct_smul, smul_eq_mul, Matrix.dotProduct_comm d x, pow_two]

/-- An outer product `d dᵀ` is positive semi-definite. -/
theorem posSemidef_vecMulVec_self {n : Nat} (d : Fin n → ℝ) : (vecMulVec d d).PosSemidef := by
  refine ⟨?_, fun x => ?_⟩
  · ext i j
    simp [vecMulVec_apply, mul_comm]
  · rw [star_trivial, quadForm_vecMulVec_self]
    positivity

/-- A non-negative multiple of a positive semi-definite matrix is positive
semi-definite. -/
theorem posSemidef_smul {n : Nat} {A : Matrix (Fin n) (Fin n) ℝ} (hA : A.PosSemidef) {c : ℝ}
    (hc : 0 ≤ c) : (c • A).PosSemidef := by
  refine ⟨?_, fun x => ?_⟩
  · have h := hA.1
    unfold Matrix.IsHermitian at h ⊢
    rw [Matrix.conjTranspose_smul, h, star_trivial]
  · rw [Matrix.smul_mulVec_assoc, Matrix.dotProduct_smul, smul_eq_mul]
    exact mul_nonneg hc (hA.2 x)

/-- A sum of outer products with non-negative weights is positive
semi-definite. -/
theorem posSemidef_sum_smul_vecMulVec_self {n : Nat} (w : Fin 15 → ℝ) (hw : ∀ i, 0 ≤ w i)
    (d : Fin 15 → Fin n → ℝ) : (∑ i : Fin 15, w i • vecMulVec (d i) (d i)).PosSemidef := by
  apply Finset.sum_induction _ Matrix.PosSemidef
  · intro A B hA hB
    exact hA.add hB
  · exact Matrix.PosSemidef.zero
  · intro i _
    exact posSemidef_smul (posSemidef_vecMulVec_self (d i)) (hw i)

/-- A positive semi-definite matrix has a non-negative top-left entry. -/
theorem posSemidef_apply_zero_nonneg {A : Matrix (Fin 5) (Fin 5) ℝ} (hA : A.PosSemidef) :
    0 ≤ A 0 0 := by
  have h := hA.2 (Pi.single 0 1)
  simpa using h

/-- C8, amended: with the constructor's weights, the covariance written by
`Prediction` plus `4/3` times the outer product of the centre sigma point's
residual is positive semi-definite (the fourteen other terms carry the weight
`1/6`); hence the covariance is positive semi-definite whenever that residual
is zero, which is the case for `delta_t = 0`. -/
theorem Prediction_posSemidef_up_to_centre (E : Env ℝ) (s : UKF ℝ) (delta_t : ℝ)
    (hw : s.weights_ = (ctor : UKF ℝ).weights_) :
    ((Prediction E s delta_t).P_ + (4 / 3 : ℝ) •
      vecMulVec (x_diff E (Prediction E s delta_t).Xsig_pred_ (Prediction E s delta_t).x_ 0)
        (x_diff E (Prediction E s delta_t).Xsig_pred_ (Prediction E s delta_t).x_ 0)).PosSemidef ∧
    (x_diff E (Prediction E s delta_t).Xsig_pred_ (Prediction E s delta_t).x_ 0 = 0 →
      (Prediction E s delta_t).P_.PosSemidef) ∧
    (Prediction E s 0).P_.PosSemidef := by
  have key : ∀ dt : ℝ,
      ((Prediction E s dt).P_ + (4 / 3 : ℝ) •
        vecMulVec (x_diff E (Prediction E s dt).Xsig_pred_ (Prediction E s dt).x_ 0)
          (x_diff E (Prediction E s dt).Xsig_pred_ (Prediction E s dt).x_ 0)).PosSemidef := by
    intro dt
    have e : (Prediction E s dt).P_ + (4 / 3 : ℝ) •
        vecMulVec (x_diff E (Prediction E s dt).Xsig_pred_ (Prediction E s dt).x_ 0)
          (x_diff E (Prediction E s dt).Xsig_pred_ (Prediction E s dt).x_ 0) =
        ∑ i : Fin 15, (if i = 0 then (0 : ℝ) else 1 / 6) •
          vecMulVec (x_diff E (Prediction E s dt).Xsig_pred_ (Prediction E s dt).x_ i)
            (x_diff E (Prediction E s dt).Xsig_pred_ (Prediction E s dt).x_ i) := by
      have e1 : (Prediction E s dt).P_ = ∑ i : Fin 15, s.weights_ i •
          vecMulVec (x_diff E (Prediction E s dt).Xsig_pred_ (Prediction E s dt).x_ i)
            (x_diff E (Prediction E s dt).Xsig_pred_ (Prediction E s dt).x_ i) := rfl
      rw [e1, hw, Fin.sum_univ_succ, Fin.sum_univ_succ (fun i : Fin 15 => _ • _)]
      simp only [ctor_weights, Fin.succ_ne_zero, if_true, if_false, zero_smul, zero_add]
      rw [add_comm, ← add_assoc, ← add_smul]
      norm_num
    rw [e]
    apply posSemidef_sum_smul_vecMulVec_self
    intro i
    split_ifs <;> norm_num
  have z : vecMulVec (0 : Fin 5 → ℝ) (0 : Fin 5 → ℝ) = 0 := by
    ext i j
    simp [vecMulVec_apply]
  refine ⟨key delta_t, ?_, ?_⟩
  · intro h0
    have h := key delta_t
    rw [h0, z, smul_zero, add_zero] at h
    exact h
  · have h := key 0
    have h0 : x_diff E (Prediction E s 0).Xsig_pred_ (Prediction E s 0).x_ 0 = 0 := by
      have hx : ∀ r : Fin 5, (Prediction E s 0).Xsig_pred_ r 0 - (Prediction E s 0).x_ r = 0 := by
        intro r
        have e2 : (Prediction E s 0).x_ r =
            ∑ i : Fin 15, s.weights_ i * Xsig_aug E s (Fin.castLE (by decide) r) i := by
          simp only [Prediction, predictSigmaPoints, predictSigmaPoint_zero_dt]
          fin_cases r <;> rfl
        have e3 : (Prediction E s 0).Xsig_pred_ r 0 = Xsig_aug E s (Fin.castLE (by decide) r) 0 := by
          simp only [Prediction, predictSigmaPoints, predictSigmaPoint_zero_dt]
          fin_cases r <;> rfl
        rw [e2, e3, weighted_mean_Xsig_aug E s hw, Xsig_aug_zero, sub_self]
      funext r
      unfold x_diff
      simp only [hx]
      rw [normalizeAngle_of_mem E 0 (by have := E.M_PI_pos; linarith)
        (by have := E.M_PI_pos; linarith)]
      simp
    rw [h0, z, smul_zero, add_zero] at h
    exact h

end UKF

namespace UKF

/-- The entries of `skewSpread`, by position. -/
theorem skewSpread_apply (a b : ℝ) (i j : Fin 7) :
    skewSpread a b i j =
      if i.val = j.val then
        (if i.val < 3 then 1 else if i.val < 5 then b else if i.val = 5 then 1.5 * a else 0.5 * a)
      else if i.val = 3 ∧ j.val < 3 then b else 0 := by
  fin_cases i <;> fin_cases j <;> rfl

/-- The entries of `skewCovariance`, by position. -/
theorem skewCovariance_apply (b : ℝ) (i j : Fin 5) :
    skewCovariance b i j =
      if i.val = j.val then
        (if i.val < 3 then 1 / 3 else if i.val = 3 then 4 * b ^ 2 / 3 else b ^ 2 / 3)
      else if (i.val = 3 ∧ j.val < 3) ∨ (j.val = 3 ∧ i.val < 3) then b / 3 else 0 := by
  fin_cases i <;> fin_cases j <;> rfl

/-- The factor `skewCholesky` is the Cholesky factor of the augmented covariance
of `skewState`. -/
theorem skewCholesky_isCholeskyFactor :
    IsCholeskyFactor (skewCholesky (Real.sqrt 3) Real.pi) (P_aug (skewState Real.pi)) := by
  have h3 : (0 : ℝ) < Real.sqrt 3 := Real.sqrt_pos.mpr (by norm_num)
  have hs : Real.sqrt 3 * Real.sqrt 3 = 3 := Real.mul_self_sqrt (by norm_num)
  have hs2 : Real.sqrt 3 ^ 2 = 3 := by rw [pow_two, hs]
  refine ⟨?_, ?_, ?_⟩
  · intro i j h
    fin_cases i <;> fin_cases j <;>
      first
        | exact absurd h (by decide)
        | (show (0 : ℝ) / Real.sqrt 3 = 0; simp)
  · intro i
    fin_cases i
    · show (0 : ℝ) < 1 / Real.sqrt 3; positivity
    · show (0 : ℝ) < 1 / Real.sqrt 3; positivity
    · show (0 : ℝ) < 1 / Real.sqrt 3; positivity
    · show (0 : ℝ) < Real.pi / Real.sqrt 3; positivity
    · show (0 : ℝ) < Real.pi / Real.sqrt 3; positivity
    · show (0 : ℝ) < 1.5 * Real.sqrt 3 / Real.sqrt 3; positivity
    · show (0 : ℝ) < 0.5 * Real.sqrt 3 / Real.sqrt 3; positivity
  · ext i j
    rw [Matrix.mul_apply, Fin.sum_univ_seven]
    simp only [Matrix.transpose_apply, skewCholesky, skewSpread_apply, P_aug, skewState,
      skewCovariance_apply, ctor]
    fin_cases i <;> fin_cases j <;> simp +decide <;> field_simp <;> nlinarith [hs, hs2]

end UKF

namespace UKF

/-- A matrix with a Cholesky factor is positive definite. -/
theorem posDef_of_isCholeskyFactor {n : Nat} {L A : Matrix (Fin n) (Fin n) ℝ}
    (h : IsCholeskyFactor L A) : A.PosDef := by
  obtain ⟨hlow, hdiag, rfl⟩ := h
  have hdet : L.det ≠ 0 := by
    rw [Matrix.det_of_lowerTriangular L
      (fun i j hij => hlow i j (OrderDual.toDual_lt_toDual.mp hij))]
    exact (Finset.prod_pos (fun i _ => hdiag i)).ne'
  refine ⟨?_, fun x hx => ?_⟩
  · unfold Matrix.IsHermitian
    rw [Matrix.conjTranspose_eq_transpose_of_trivial, Matrix.transpose_mul,
      Matrix.transpose_transpose]
  · have hne : Lᵀ *ᵥ x ≠ 0 := fun h0 =>
      hx (Matrix.eq_zero_of_mulVec_eq_zero (by rwa [Matrix.det_transpose]) h0)
    have e : star x ⬝ᵥ (L * Lᵀ) *ᵥ x = star (Lᵀ *ᵥ x) ⬝ᵥ (Lᵀ *ᵥ x) := by
      rw [star_trivial, star_trivial, ← Matrix.mulVec_mulVec, Matrix.dotProduct_mulVec,
        ← Matrix.mulVec_transpose]
    rw [e]
    exact Matrix.dotProduct_star_self_pos_iff.mpr hne

/-- The covariance `skewCovariance` is positive definite: the state block of
`skewCholesky` is its Cholesky factor. -/
theorem skewCovariance_posDef : (skewCovariance Real.pi).PosDef := by
  have h3 : (0 : ℝ) < Real.sqrt 3 := Real.sqrt_pos.mpr (by norm_num)
  have hs : Real.sqrt 3 * Real.sqrt 3 = 3 := Real.mul_self_sqrt (by norm_num)
  have hs2 : Real.sqrt 3 ^ 2 = 3 := by rw [pow_two, hs]
  have hC : IsCholeskyFactor
      (fun i j : Fin 5 =>
        skewCholesky (Real.sqrt 3) Real.pi (Fin.castLE (by decide) i) (Fin.castLE (by decide) j))
      (skewCovariance Real.pi) := by
    refine ⟨?_, ?_, ?_⟩
    · intro i j h
      fin_cases i <;> fin_cases j <;>
        first
          | exact absurd h (by decide)
          | (show (0 : ℝ) / Real.sqrt 3 = 0; simp)
    · intro i
      fin_cases i
      · show (0 : ℝ) < 1 / Real.sqrt 3; positivity
      · show (0 : ℝ) < 1 / Real.sqrt 3; positivity
      · show (0 : ℝ) < 1 / Real.sqrt 3; positivity
      · show (0 : ℝ) < Real.pi / Real.sqrt 3; positivity
      · show (0 : ℝ) < Real.pi / Real.sqrt 3; positivity
    · ext i j
      rw [Matrix.mul_apply, Fin.sum_univ_five]
      simp only [Matrix.transpose_apply, skewCholesky, skewSpread_apply, skewCovariance_apply]
      fin_cases i <;> fin_cases j <;> simp +decide <;> field_simp <;> nlinarith [hs, hs2]
  exact posDef_of_isCholeskyFactor hC

end UKF

namespace UKF

/-- The position component `px_p` of a propagated sigma point. -/
theorem predictSigmaPoint_zero (E : Env ℝ) (dt : ℝ) (xa : Fin 7 → ℝ) :
    predictSigmaPoint E dt xa 0 =
      (if |xa 4| > 1e-6 then xa 0 + xa 2 / xa 4 * (E.sin (xa 3 + xa 4 * dt) - E.sin (xa 3))
        else xa 0 + xa 2 * E.cos (xa 3) * dt) + 0.5 * xa 5 * dt * dt * E.cos (xa 3) := rfl

/-- The top-left entry of the covariance written by `Prediction`: the weighted
sum of the squared position residuals. -/
theorem Prediction_P_zero_zero (E : Env ℝ) (s : UKF ℝ) (dt : ℝ) :
    (Prediction E s dt).P_ 0 0 =
      ∑ i : Fin 15, s.weights_ i *
        ((predictSigmaPoints E s dt 0 i - (Prediction E s dt).x_ 0) *
          (predictSigmaPoints E s dt 0 i - (Prediction E s dt).x_ 0)) := by
  simp only [Prediction, Matrix.sum_apply, Matrix.smul_apply, vecMulVec_apply, x_diff,
    smul_eq_mul]
  apply Finset.sum_congr rfl
  intro i _
  rw [Function.update_noteq (by decide)]

/-- The sigma points of `skewState`: the augmented mean plus or minus the
columns of `skewSpread`. -/
theorem skew_Xsig_aug_apply (k : Fin 7) (i : Fin 15) :
    Xsig_aug (realEnv (lltConst (skewCholesky (Real.sqrt 3) Real.pi))) (skewState Real.pi) k i =
      if i.val = 0 then x_aug (skewState Real.pi) k
      else if h : i.val ≤ 7 then
        x_aug (skewState Real.pi) k + skewSpread (Real.sqrt 3) Real.pi k ⟨i.val - 1, by omega⟩
      else x_aug (skewState Real.pi) k
        - skewSpread (Real.sqrt 3) Real.pi k ⟨i.val - 1 - 7, by omega⟩ := by
  have h3 : (0 : ℝ) < Real.sqrt 3 := Real.sqrt_pos.mpr (by norm_num)
  have hc : (realEnv (lltConst (skewCholesky (Real.sqrt 3) Real.pi))).sqrt
      ((skewState Real.pi).lambda_ + ((skewState Real.pi).n_aug_ : ℝ)) = Real.sqrt 3 := by
    simp only [realEnv, skewState, ctor]
    norm_num
  have hm : ∀ j : Fin 7, Real.sqrt 3 * skewCholesky (Real.sqrt 3) Real.pi k j =
      skewSpread (Real.sqrt 3) Real.pi k j := by
    intro j
    simp only [skewCholesky]
    field_simp
  unfold Xsig_aug
  simp only [hc]
  simp only [realEnv, lltConst, hm]

/-- The position components `px_p` of the fifteen propagated sigma points of
`skewState` over one second. -/
theorem skew_Xsig_pred_px :
    predictSigmaPoints (realEnv (lltConst (skewCholesky (Real.sqrt 3) Real.pi)))
        (skewState Real.pi) 1 0 =
      fun i => if i = 0 then 1 else if i = 1 then 0 else if i = 2 then -1 else if i = 3 then -2
        else if i = 4 then -1 else if i = 5 then 0 else if i = 6 then 1 + 0.75 * Real.sqrt 3
        else if i = 7 then 1 else if i = 8 then -2 else if i = 9 then -1 else if i = 10 then 0
        else if i = 11 then -1 else if i = 12 then 0 else if i = 13 then 1 - 0.75 * Real.sqrt 3
        else 1 := by
  have hpi : (1e-6 : ℝ) < Real.pi := by
    have := Real.pi_gt_three
    norm_num
    linarith
  have hpi0 : ¬ ((1e-6 : ℝ) < 0) := by norm_num
  have habs : |Real.pi| = Real.pi := abs_of_pos Real.pi_pos
  funext i
  simp only [predictSigmaPoints, predictSigmaPoint_zero, skew_Xsig_aug_apply, skewSpread_apply]
  have hx : x_aug (skewState Real.pi) = ![0, 0, 1, 0, 0, 0, 0] := by
    funext k
    fin_cases k <;> rfl
  have h5 : (![0, 0, 1, 0, 0, 0, 0] : Fin 7 → ℝ) 5 = 0 := rfl
  rw [hx]
  fin_cases i <;> simp +decide [realEnv, habs, hpi, hpi0, h5] <;> ring

end UKF

namespace UKF

/-- The mean position `x_(0)` of `skewState` after `Prediction` over one second. -/
theorem skew_mean_px :
    (Prediction (realEnv (lltConst (skewCholesky (Real.sqrt 3) Real.pi)))
      (skewState Real.pi) 1).x_ 0 = -2 := by
  have e : (Prediction (realEnv (lltConst (skewCholesky (Real.sqrt 3) Real.pi)))
      (skewState Real.pi) 1).x_ 0 =
      ∑ i : Fin 15, (ctor : UKF ℝ).weights_ i *
        predictSigmaPoints (realEnv (lltConst (skewCholesky (Real.sqrt 3) Real.pi)))
          (skewState Real.pi) 1 0 i := rfl
  rw [e, sum_ctor_weights, skew_Xsig_pred_px]
  simp +decide
  ring

/-- The top-left entry of the covariance of `skewState` after `Prediction` over
one second is `-101/48`. -/
theorem skew_P_zero_zero :
    (Prediction (realEnv (lltConst (skewCholesky (Real.sqrt 3) Real.pi)))
      (skewState Real.pi) 1).P_ 0 0 = -(101 / 48) := by
  have hs : Real.sqrt 3 ^ 2 = 3 := Real.sq_sqrt (by norm_num)
  have hw : (skewState Real.pi).weights_ = (ctor : UKF ℝ).weights_ := rfl
  rw [Prediction_P_zero_zero, hw, sum_ctor_weights, skew_mean_px, skew_Xsig_pred_px]
  simp +decide
  ring_nf
  rw [hs]
  norm_num

/-- Counterexample to C8: `skewState` has a symmetric positive definite
covariance, `skewCholesky` is the Cholesky factor of its augmented covariance,
it carries the constructor's weights, and after `Prediction` over one second
the covariance has the negative diagonal entry `-101/48`, so it is not
positive semi-definite. -/
theorem Prediction_loses_posSemidef :
    (skewState Real.pi).P_.PosDef ∧
    IsCholeskyFactor (skewCholesky (Real.sqrt 3) Real.pi) (P_aug (skewState Real.pi)) ∧
    (skewState Real.pi).weights_ = (ctor : UKF ℝ).weights_ ∧
    (0 : ℝ) ≤ 1 ∧
    (Prediction (realEnv (lltConst (skewCholesky (Real.sqrt 3) Real.pi)))
      (skewState Real.pi) 1).P_ 0 0 = -(101 / 48) ∧
    ¬ (Prediction (realEnv (lltConst (skewCholesky (Real.sqrt 3) Real.pi)))
      (skewState Real.pi) 1).P_.PosSemidef := by
  refine ⟨skewCovariance_posDef, skewCholesky_isCholeskyFactor, rfl, by norm_num,
    skew_P_zero_zero, ?_⟩
  intro h
  have h0 := posSemidef_apply_zero_nonneg h
  rw [skew_P_zero_zero] at h0
  norm_num at h0

/-- Witness of C8 (amended): the constructed estimator, over one second. -/
theorem Prediction_posSemidef_up_to_centre_witness :
    (ukfStarted : UKF ℝ).weights_ = (ctor : UKF ℝ).weights_ ∧
    ((Prediction env0 ukfStarted 1).P_ + (4 / 3 : ℝ) •
      vecMulVec (x_diff env0 (Prediction env0 ukfStarted 1).Xsig_pred_
          (Prediction env0 ukfStarted 1).x_ 0)
        (x_diff env0 (Prediction env0 ukfStarted 1).Xsig_pred_
          (Prediction env0 ukfStarted 1).x_ 0)).PosSemidef ∧
    (Prediction env0 ukfStarted 0).P_.PosSemidef :=
  ⟨rfl, (Prediction_posSemidef_up_to_centre env0 ukfStarted 1 rfl).1,
    (Prediction_posSemidef_up_to_centre env0 ukfStarted 1 rfl).2.2⟩

/-! ### The heading of the mean -/

/-- The entries of `ctorCholesky`, by position. -/
theorem ctorCholesky_apply (i j : Fin 7) :
    (ctorCholesky : Matrix (Fin 7) (Fin 7) ℝ) i j =
      if i.val = j.val then (if i.val < 5 then 1 else if i.val = 5 then 1.5 else 0.5) else 0 := by
  fin_cases i <;> fin_cases j <;> rfl

/-- For an estimator with the identity covariance and the constructor's process
noise, `ctorCholesky` is the Cholesky factor of the augmented covariance. -/
theorem ctorCholesky_isCholeskyFactor (s : UKF ℝ) (hP : s.P_ = 1) (ha : s.std_a_ = 1.5)
    (hy : s.std_yawdd_ = 0.5) :
    IsCholeskyFactor (ctorCholesky : Matrix (Fin 7) (Fin 7) ℝ) (P_aug s) := by
  refine ⟨?_, ?_, ?_⟩
  · intro i j h
    rw [ctorCholesky_apply, if_neg (by omega)]
  · intro i
    rw [ctorCholesky_apply]
    simp only [if_true]
    split_ifs <;> norm_num
  · ext i j
    rw [Matrix.mul_apply, Fin.sum_univ_seven]
    simp only [Matrix.transpose_apply, ctorCholesky_apply, P_aug, hP, ha, hy, Matrix.one_apply]
    fin_cases i <;> fin_cases j <;> simp +decide

/-- Counterexample to C9: a started estimator with heading 3, inside
`(-π, π]`, and yaw rate 1 has, after `Prediction` over one second, the mean
heading 4, which is larger than `π`. -/
theorem Prediction_heading_leaves_range :
    -Real.pi < (turningState : UKF ℝ).x_ 3 ∧ (turningState : UKF ℝ).x_ 3 ≤ Real.pi ∧
    (0 : ℝ) ≤ 1 ∧
    IsCholeskyFactor (ctorCholesky : Matrix (Fin 7) (Fin 7) ℝ) (P_aug turningState) ∧
    (Prediction env0 turningState 1).x_ 3 = 4 ∧
    ¬ ((Prediction env0 turningState 1).x_ 3 ≤ Real.pi) := by
  have e : (Prediction env0 turningState 1).x_ 3 = 4 := by
    rw [Prediction_mean_heading env0 turningState 1 rfl]
    show (3 : ℝ) + 1 * 1 = 4
    norm_num
  have h3 : (turningState : UKF ℝ).x_ 3 = 3 := rfl
  refine ⟨?_, ?_, by norm_num, ?_, e, ?_⟩
  · rw [h3]
    have := Real.pi_pos
    linarith
  · rw [h3]
    exact Real.pi_gt_three.le
  · exact ctorCholesky_isCholeskyFactor turningState rfl rfl rfl
  · rw [e]
    have := Real.pi_lt_d2
    intro h
    norm_num at this
    linarith

/-- C9, amended: with the constructor's weights, the heading component of the
mean after `Prediction` is `yaw + yawd * delta_t`, with no wrapping; it lies in
`(-π, π]` whenever `yaw + yawd * delta_t` does. -/
theorem Prediction_heading_in_range (E : Env ℝ) (s : UKF ℝ) (delta_t : ℝ)
    (hw : s.weights_ = (ctor : UKF ℝ).weights_)
    (h1 : -Real.pi < s.x_ 3 + s.x_ 4 * delta_t) (h2 : s.x_ 3 + s.x_ 4 * delta_t ≤ Real.pi) :
    -Real.pi < (Prediction E s delta_t).x_ 3 ∧ (Prediction E s delta_t).x_ 3 ≤ Real.pi := by
  rw [Prediction_mean_heading E s delta_t hw]
  exact ⟨h1, h2⟩

/-- Witness of C9 (amended): the constructed estimator, heading 0 and yaw rate
0, over one second. -/
theorem Prediction_heading_in_range_witness :
    (ukfStarted : UKF ℝ).weights_ = (ctor : UKF ℝ).weights_ ∧
    -Real.pi < (ukfStarted : UKF ℝ).x_ 3 + (ukfStarted : UKF ℝ).x_ 4 * 1 ∧
    (ukfStarted : UKF ℝ).x_ 3 + (ukfStarted : UKF ℝ).x_ 4 * 1 ≤ Real.pi ∧
    -Real.pi < (Prediction env0 ukfStarted 1).x_ 3 ∧
    (Prediction env0 ukfStarted 1).x_ 3 ≤ Real.pi := by
  have a : -Real.pi < (ukfStarted : UKF ℝ).x_ 3 + (ukfStarted : UKF ℝ).x_ 4 * 1 := by
    show -Real.pi < (0 : ℝ) + 0 * 1
    have := Real.pi_pos
    linarith
  have b : (ukfStarted : UKF ℝ).x_ 3 + (ukfStarted : UKF ℝ).x_ 4 * 1 ≤ Real.pi := by
    show (0 : ℝ) + 0 * 1 ≤ Real.pi
    have := Real.pi_pos
    linarith
  exact ⟨rfl, a, b, Prediction_heading_in_range env0 ukfStarted 1 rfl a b⟩

end UKF

namespace Tools

variable {α : Type} [LinearOrderedField α]

/-- C10: when `estimations` is empty or the two sequences differ in length,
`CalculateRMSE` returns the zero 4-vector (the embedding is a total function,
so the call does not fail). -/
theorem CalculateRMSE_invalid_input (sqrt : α → α) (estimations ground_truth : List (Fin 4 → α))
    (h : estimations = [] ∨ estimations.length ≠ ground_truth.length) :
    CalculateRMSE sqrt estimations ground_truth = ![0, 0, 0, 0] := by
  unfold CalculateRMSE
  rw [if_pos]
  rcases h with h | h
  · left
    rw [h]
    rfl
  · right
    exact h

/-- Witness of C10: `rmse([], [])` and `rmse([v], [v, v])` for
`v = [1, 2, 3, 4]`. -/
theorem CalculateRMSE_invalid_input_witness :
    (([] : List (Fin 4 → ℝ)) = [] ∨
      ([] : List (Fin 4 → ℝ)).length ≠ ([] : List (Fin 4 → ℝ)).length) ∧
    CalculateRMSE Real.sqrt ([] : List (Fin 4 → ℝ)) [] = ![0, 0, 0, 0] ∧
    (([![1, 2, 3, 4]] : List (Fin 4 → ℝ)) = [] ∨
      ([![1, 2, 3, 4]] : List (Fin 4 → ℝ)).length ≠
        ([![1, 2, 3, 4], ![1, 2, 3, 4]] : List (Fin 4 → ℝ)).length) ∧
    CalculateRMSE Real.sqrt ([![1, 2, 3, 4]] : List (Fin 4 → ℝ))
      [![1, 2, 3, 4], ![1, 2, 3, 4]] = ![0, 0, 0, 0] :=
  ⟨Or.inl rfl, CalculateRMSE_invalid_input Real.sqrt [] [] (Or.inl rfl),
    Or.inr (by decide),
    CalculateRMSE_invalid_input Real.sqrt [![1, 2, 3, 4]] [![1, 2, 3, 4], ![1, 2, 3, 4]]
      (Or.inr (by decide))⟩

end Tools

namespace Tools

variable {α : Type} [LinearOrderedField α]

/-- The accumulation loop of `CalculateRMSE`: after the loop, component `k` of
the accumulator has grown by the sum of the squared residuals. -/
theorem foldl_squared_residuals (l : List ((Fin 4 → α) × (Fin 4 → α))) (acc : Fin 4 → α)
    (k : Fin 4) :
    (l.foldl (fun acc p => fun k => acc k + (p.1 k - p.2 k) * (p.1 k - p.2 k)) acc) k =
      acc k + (l.map (fun p => (p.1 k - p.2 k) ^ 2)).sum := by
  induction l generalizing acc with
  | nil => simp
  | cons p l ih =>
    rw [List.foldl_cons, ih, List.map_cons, List.sum_cons]
    ring

/-- The sum over the paired elements of two lists of equal length is the sum
over the common index. -/
theorem sum_map_zip_eq_sum_index (f : (Fin 4 → α) → (Fin 4 → α) → α) :
    ∀ (est gt : List (Fin 4 → α)) (hlen : est.length = gt.length),
      ((List.zip est gt).map (fun p => f p.1 p.2)).sum =
        ∑ i : Fin est.length, f (est.get i) (gt.get (Fin.cast hlen i))
  | [], [], _ => by simp
  | [], _ :: _, h => by simp at h
  | _ :: _, [], h => by simp at h
  | e :: es, g :: gs, h => by
    have h2 : es.length = gs.length := by simpa using h
    rw [List.zip_cons_cons, List.map_cons, List.sum_cons, sum_map_zip_eq_sum_index f es gs h2]
    exact (Fin.sum_univ_succ
      (fun i : Fin (es.length + 1) => f ((e :: es).get i) ((g :: gs).get (Fin.cast h i)))).symm

/-- C11: for a non-empty pair of equal-length sequences, component `k` of the
result of `CalculateRMSE` is `sqrt((1/n) * Σ_i (est_i[k] - gt_i[k])^2)`, with
`n` the common length. -/
theorem CalculateRMSE_formula (sqrt : α → α) (estimations ground_truth : List (Fin 4 → α))
    (hne : estimations ≠ []) (hlen : estimations.length = ground_truth.length) (k : Fin 4) :
    CalculateRMSE sqrt estimations ground_truth k =
      sqrt (1 / (estimations.length : α) *
        ∑ i : Fin estimations.length,
          (estimations.get i k - (ground_truth.get (Fin.cast hlen i)) k) ^ 2) := by
  unfold CalculateRMSE
  rw [if_neg]
  · simp only [foldl_squared_residuals]
    rw [sum_map_zip_eq_sum_index (fun e g => (e k - g k) ^ 2) estimations ground_truth hlen]
    congr 1
    have z : (![0, 0, 0, 0] : Fin 4 → α) k = 0 := by fin_cases k <;> rfl
    rw [z, zero_add, div_eq_mul_inv, one_div, mul_comm]
  · intro h
    rcases h with h | h
    · exact hne (List.isEmpty_iff.mp h)
    · exact h hlen

/-- Witness of C11: two estimates `[1,2,3,4]`, `[3,2,1,0]` against the ground
truth `[0,0,0,0]`, `[0,0,0,0]`; the first component is `sqrt((1 + 9) / 2)`. -/
theorem CalculateRMSE_formula_witness :
    ([![1, 2, 3, 4], ![3, 2, 1, 0]] : List (Fin 4 → ℝ)) ≠ [] ∧
    ([![1, 2, 3, 4], ![3, 2, 1, 0]] : List (Fin 4 → ℝ)).length =
      ([![0, 0, 0, 0], ![0, 0, 0, 0]] : List (Fin 4 → ℝ)).length ∧
    CalculateRMSE Real.sqrt [![1, 2, 3, 4], ![3, 2, 1, 0]] [![0, 0, 0, 0], ![0, 0, 0, 0]] 0 =
      Real.sqrt 5 := by
  refine ⟨by simp, rfl, ?_⟩
  rw [CalculateRMSE_formula Real.sqrt [![1, 2, 3, 4], ![3, 2, 1, 0]]
    [![0, 0, 0, 0], ![0, 0, 0, 0]] (by simp) rfl 0]
  congr 1
  simp [Fin.sum_univ_succ]
  norm_num

end Tools

namespace UKF

variable {α : Type} [LinearOrderedField α]

/-- The sigma points of `flatState` when `llt()` is `lltFailing`: only the two
noise components are spread. -/
theorem flat_Xsig_aug_apply (k : Fin 7) (i : Fin 15) :
    Xsig_aug (realEnv lltFailing) (flatState : UKF ℝ) k i =
      (![0, 0, 1, 0, 0, 0, 0] : Fin 7 → ℝ) k +
        (if k.val = 5 ∧ i.val = 6 then Real.sqrt 3 * (1.5 * 1.5)
          else if k.val = 5 ∧ i.val = 13 then -(Real.sqrt 3 * (1.5 * 1.5))
          else if k.val = 6 ∧ i.val = 7 then Real.sqrt 3 * (0.5 * 0.5)
          else if k.val = 6 ∧ i.val = 14 then -(Real.sqrt 3 * (0.5 * 0.5))
          else 0) := by
  have hc : (realEnv lltFailing).sqrt
      ((flatState : UKF ℝ).lambda_ + ((flatState : UKF ℝ).n_aug_ : ℝ)) = Real.sqrt 3 := by
    simp only [realEnv, flatState, ctor]
    norm_num
  have hx : x_aug (flatState : UKF ℝ) = ![0, 0, 1, 0, 0, 0, 0] := by
    funext k
    fin_cases k <;> rfl
  have hL : ∀ a b : Fin 7, ((realEnv lltFailing).llt (P_aug (flatState : UKF ℝ))).matrixL a b =
      if a.val = 5 ∧ b.val = 5 then 1.5 * 1.5 else if a.val = 6 ∧ b.val = 6 then 0.5 * 0.5
        else 0 := by
    intro a b
    fin_cases a <;> fin_cases b <;> rfl
  unfold Xsig_aug
  simp only [hc, hx, hL]
  fin_cases k <;> fin_cases i <;> simp +decide <;> ring

/-- The position components `px_p` of the fifteen propagated sigma points of
`flatState` over one second, when `llt()` is `lltFailing`. -/
theorem flat_Xsig_pred_px :
    predictSigmaPoints (realEnv lltFailing) (flatState : UKF ℝ) 1 0 =
      fun i => if i = 6 then 1 + 1.125 * Real.sqrt 3 else if i = 13 then 1 - 1.125 * Real.sqrt 3
        else 1 := by
  have hpi0 : ¬ ((1e-6 : ℝ) < 0) := by norm_num
  have h5 : (![0, 0, 1, 0, 0, 0, 0] : Fin 7 → ℝ) 5 = 0 := rfl
  funext i
  simp only [predictSigmaPoints, predictSigmaPoint_zero, flat_Xsig_aug_apply]
  fin_cases i <;> simp +decide [realEnv, hpi0, h5] <;> ring

/-- The mean position of `flatState` after `Prediction` over one second, when
`llt()` is `lltFailing`. -/
theorem flat_mean_px : (Prediction (realEnv lltFailing) (flatState : UKF ℝ) 1).x_ 0 = 1 := by
  have e : (Prediction (realEnv lltFailing) (flatState : UKF ℝ) 1).x_ 0 =
      ∑ i : Fin 15, (ctor : UKF ℝ).weights_ i *
        predictSigmaPoints (realEnv lltFailing) (flatState : UKF ℝ) 1 0 i := rfl
  rw [e, sum_ctor_weights, flat_Xsig_pred_px]
  simp +decide
  ring

/-- The top-left entry of the covariance of `flatState` after `Prediction` over
one second, when `llt()` is `lltFailing`. -/
theorem flat_P_zero_zero :
    (Prediction (realEnv lltFailing) (flatState : UKF ℝ) 1).P_ 0 0 = 81 / 64 := by
  have hs : Real.sqrt 3 ^ 2 = 3 := Real.sq_sqrt (by norm_num)
  have hw : (flatState : UKF ℝ).weights_ = (ctor : UKF ℝ).weights_ := rfl
  rw [Prediction_P_zero_zero, hw, sum_ctor_weights, flat_mean_px, flat_Xsig_pred_px]
  simp +decide
  ring_nf
  rw [hs]
  norm_num

/-- A positive definite matrix has a positive top-left entry. -/
theorem posDef_apply_zero_pos {A : Matrix (Fin 7) (Fin 7) ℝ} (hA : A.PosDef) : 0 < A 0 0 := by
  have h := hA.2 (Pi.single 0 1) (by
    intro h0
    have := congrFun h0 0
    simp at this)
  simpa using h

/-- Counterexample to C12: the augmented covariance of `flatState` is not
positive definite and `llt()` reports `NumericalIssue`, yet `Prediction` returns
a belief whose mean and covariance have been overwritten with values computed
from the returned factor: the mean position goes from 0 to 1 and the entry
`P(0,0)` from 0 to `81/64`. -/
theorem Prediction_proceeds_after_failed_llt :
    ¬ (P_aug (flatState : UKF ℝ)).PosDef ∧
    ((realEnv lltFailing).llt (P_aug (flatState : UKF ℝ))).info =
      ComputationInfo.NumericalIssue ∧
    (flatState : UKF ℝ).x_ 0 = 0 ∧
    (Prediction (realEnv lltFailing) (flatState : UKF ℝ) 1).x_ 0 = 1 ∧
    (flatState : UKF ℝ).P_ 0 0 = 0 ∧
    (Prediction (realEnv lltFailing) (flatState : UKF ℝ) 1).P_ 0 0 = 81 / 64 := by
  refine ⟨?_, rfl, rfl, flat_mean_px, rfl, flat_P_zero_zero⟩
  intro h
  have h0 := posDef_apply_zero_pos h
  have e : P_aug (flatState : UKF ℝ) 0 0 = 0 := rfl
  rw [e] at h0
  exact lt_irrefl _ h0

/-- C12, amended: `Prediction` never reads the status of the decomposition.
Whatever status `llt()` reports, it generates the sigma points from the
returned factor and overwrites the sigma-point matrix, the mean and the
covariance with the values computed from them; replacing the reported status
by any other leaves its result unchanged. -/
theorem Prediction_ignores_llt_status [FloorRing α] (E : Env α) (s : UKF α) (delta_t : α)
    (status : ComputationInfo) :
    Prediction { E with llt := fun A => ⟨(E.llt A).matrixL, status⟩ } s delta_t =
        Prediction E s delta_t ∧
      (Prediction E s delta_t).Xsig_pred_ = predictSigmaPoints E s delta_t ∧
      (Prediction E s delta_t).x_ =
        (fun r => ∑ i : Fin 15, s.weights_ i * predictSigmaPoints E s delta_t r i) ∧
      (Prediction E s delta_t).P_ =
        ∑ i : Fin 15, s.weights_ i •
          vecMulVec (x_diff E (predictSigmaPoints E s delta_t) (Prediction E s delta_t).x_ i)
            (x_diff E (predictSigmaPoints E s delta_t) (Prediction E s delta_t).x_ i) :=
  ⟨rfl, rfl, rfl, rfl⟩

end UKF

namespace UKF

variable {α : Type} [LinearOrderedField α]

/-! ### The normalisation loops -/

/-- The first loop subtracts `2π` a natural number of times; its result is at
most `π`, and it is either its argument or larger than `-π`. -/
theorem subWhileGt_spec [FloorRing α] (pi : α) (hpi : 0 < pi) (x : α) :
    (∃ k : ℕ, subWhileGt pi hpi x = x - k * (2 * pi)) ∧ subWhileGt pi hpi x ≤ pi ∧
      (subWhileGt pi hpi x = x ∨ -pi < subWhileGt pi hpi x) := by
  induction x using subWhileGt.induct pi hpi with
  | case1 x h ih =>
    obtain ⟨⟨k, hk⟩, h1, h2⟩ := ih
    rw [subWhileGt, if_pos h]
    refine ⟨⟨k + 1, ?_⟩, h1, Or.inr ?_⟩
    · rw [hk]
      push_cast
      ring
    · rcases h2 with h2 | h2
      · rw [h2]
        linarith
      · exact h2
  | case2 x h =>
    rw [subWhileGt, if_neg h]
    exact ⟨⟨0, by simp⟩, not_lt.mp h, Or.inl rfl⟩

/-- The second loop adds `2π` a natural number of times; its result is at
least `-π`, and it is either its argument or smaller than `π`. -/
theorem addWhileLt_spec [FloorRing α] (pi : α) (hpi : 0 < pi) (x : α) :
    (∃ k : ℕ, addWhileLt pi hpi x = x + k * (2 * pi)) ∧ -pi ≤ addWhileLt pi hpi x ∧
      (addWhileLt pi hpi x = x ∨ addWhileLt pi hpi x < pi) := by
  induction x using addWhileLt.induct pi hpi with
  | case1 x h ih =>
    obtain ⟨⟨k, hk⟩, h1, h2⟩ := ih
    rw [addWhileLt, if_pos h]
    refine ⟨⟨k + 1, ?_⟩, h1, Or.inr ?_⟩
    · rw [hk]
      push_cast
      ring
    · rcases h2 with h2 | h2
      · rw [h2]
        linarith
      · exact h2
  | case2 x h =>
    rw [addWhileLt, if_neg h]
    exact ⟨⟨0, by simp⟩, not_lt.mp h, Or.inl rfl⟩

/-- The pair of loops changes its argument by an integer multiple of `2π` and
returns a value in `[-π, π]`. -/
theorem normalizeAngle_spec [FloorRing α] (E : Env α) (d : α) :
    (∃ k : ℤ, normalizeAngle E d = d + k * (2 * E.M_PI)) ∧
      -E.M_PI ≤ normalizeAngle E d ∧ normalizeAngle E d ≤ E.M_PI := by
  obtain ⟨⟨k1, hk1⟩, h1, _⟩ := subWhileGt_spec E.M_PI E.M_PI_pos d
  obtain ⟨⟨k2, hk2⟩, h3, h4⟩ :=
    addWhileLt_spec E.M_PI E.M_PI_pos (subWhileGt E.M_PI E.M_PI_pos d)
  unfold normalizeAngle
  refine ⟨⟨(k2 : ℤ) - k1, ?_⟩, h3, ?_⟩
  · rw [hk2, hk1]
    push_cast
    ring
  · rcases h4 with h4 | h4
    · rw [h4]
      exact h1
    · exact h4.le

/-- C20: the loops are total functions (their termination is part of their
definition); for every `d` they return a value `d'` that differs from `d` by an
integer multiple of `2π` and lies in `[-π, π]`, and normalising `d'` again
returns `d'`. -/
theorem normalizeAngle_multiple_range_idempotent [FloorRing α] (E : Env α) (d : α) :
    (∃ k : ℤ, normalizeAngle E d = d + k * (2 * E.M_PI)) ∧
      -E.M_PI ≤ normalizeAngle E d ∧ normalizeAngle E d ≤ E.M_PI ∧
      normalizeAngle E (normalizeAngle E d) = normalizeAngle E d := by
  obtain ⟨hk, h1, h2⟩ := normalizeAngle_spec E d
  exact ⟨hk, h1, h2, normalizeAngle_of_mem E _ h1 h2⟩

/-- The real `atan2(sin d, cos d)` is unchanged when `d` moves by an integer
multiple of `2π`, and is `d` itself for `d` in `(-π, π]`. -/
theorem atan2_sin_cos_of_mem (llt : Matrix (Fin 7) (Fin 7) ℝ → LLT ℝ) (d d1 : ℝ) (k : ℤ)
    (hk : d1 = d + k * (2 * Real.pi)) (h1 : -Real.pi < d1) (h2 : d1 ≤ Real.pi) :
    (realEnv llt).atan2 ((realEnv llt).sin d) ((realEnv llt).cos d) = d1 := by
  have e : (⟨Real.cos d, Real.sin d⟩ : ℂ) = Complex.cos (d1 : ℂ) + Complex.sin (d1 : ℂ) * Complex.I := by
    have hc : Real.cos d1 = Real.cos d := by rw [hk, Real.cos_add_int_mul_two_pi]
    have hs : Real.sin d1 = Real.sin d := by rw [hk, Real.sin_add_int_mul_two_pi]
    apply Complex.ext
    · simp [← Complex.ofReal_cos, ← Complex.ofReal_sin, hc]
    · simp [← Complex.ofReal_cos, ← Complex.ofReal_sin, hs]
  show Complex.arg ⟨Real.cos d, Real.sin d⟩ = d1
  rw [e, Complex.arg_cos_add_sin_mul_I ⟨h1, h2⟩]

/-- Counterexample to C13: for `d = -π` the loops return `-π`, which is outside
`(-π, π]`, while `atan2(sin d, cos d)` is `π`. -/
theorem normalizeAngle_neg_pi :
    normalizeAngle env0 (-Real.pi) = -Real.pi ∧
    env0.atan2 (env0.sin (-Real.pi)) (env0.cos (-Real.pi)) = Real.pi ∧
    normalizeAngle env0 (-Real.pi) ≠ env0.atan2 (env0.sin (-Real.pi)) (env0.cos (-Real.pi)) ∧
    ¬ (-Real.pi < normalizeAngle env0 (-Real.pi)) := by
  have hp := Real.pi_pos
  have a : normalizeAngle env0 (-Real.pi) = -Real.pi :=
    normalizeAngle_of_mem env0 (-Real.pi) (le_refl _) (by show -Real.pi ≤ Real.pi; linarith)
  have b : env0.atan2 (env0.sin (-Real.pi)) (env0.cos (-Real.pi)) = Real.pi :=
    atan2_sin_cos_of_mem _ (-Real.pi) Real.pi 1 (by push_cast; ring) (by linarith) (le_refl _)
  refine ⟨a, b, ?_, ?_⟩
  · rw [a, b]
    intro h
    linarith
  · rw [a]
    exact lt_irrefl _

/-- C13, amended: for every real `d` whose normalised value is not `-π`, the
value produced by the loops equals `atan2(sin d, cos d)` and lies in
`(-π, π]`. -/
theorem normalizeAngle_eq_atan2 (llt : Matrix (Fin 7) (Fin 7) ℝ → LLT ℝ) (d : ℝ)
    (h : normalizeAngle (realEnv llt) d ≠ -Real.pi) :
    normalizeAngle (realEnv llt) d =
        (realEnv llt).atan2 ((realEnv llt).sin d) ((realEnv llt).cos d) ∧
      -Real.pi < normalizeAngle (realEnv llt) d ∧ normalizeAngle (realEnv llt) d ≤ Real.pi := by
  obtain ⟨⟨k, hk⟩, h1, h2⟩ := normalizeAngle_spec (realEnv llt) d
  have h1 : -Real.pi ≤ normalizeAngle (realEnv llt) d := h1
  have h2 : normalizeAngle (realEnv llt) d ≤ Real.pi := h2
  have h3 : -Real.pi < normalizeAngle (realEnv llt) d := lt_of_le_of_ne h1 (Ne.symm h)
  exact ⟨(atan2_sin_cos_of_mem llt d _ k hk h3 h2).symm, h3, h2⟩

/-- Witness of C13 (amended): `d = 3π`, one and a half rotations away from
zero, is normalised to `π`. -/
theorem normalizeAngle_eq_atan2_witness :
    normalizeAngle env0 (3 * Real.pi) ≠ -Real.pi ∧
    normalizeAngle env0 (3 * Real.pi) = Real.pi ∧
    normalizeAngle env0 (3 * Real.pi) =
      env0.atan2 (env0.sin (3 * Real.pi)) (env0.cos (3 * Real.pi)) := by
  have hp := Real.pi_pos
  have a : normalizeAngle env0 (3 * Real.pi) = Real.pi := by
    unfold normalizeAngle
    have e1 : subWhileGt env0.M_PI env0.M_PI_pos (3 * Real.pi) = Real.pi := by
      rw [subWhileGt, if_pos (by show 3 * Real.pi > Real.pi; linarith), subWhileGt,
        if_neg (by show ¬ (3 * Real.pi - 2 * Real.pi > Real.pi); intro h; linarith)]
      show 3 * Real.pi - 2 * Real.pi = Real.pi
      ring
    rw [e1, addWhileLt, if_neg (by show ¬ (Real.pi < -Real.pi); intro h; linarith)]
  have b : normalizeAngle env0 (3 * Real.pi) ≠ -Real.pi := by
    rw [a]
    intro h
    linarith
  exact ⟨b, a, (normalizeAngle_eq_atan2 (lltConst ctorCholesky) (3 * Real.pi) b).1⟩

end UKF

namespace UKF

variable {α : Type} [LinearOrderedField α]

/-! ### The two branches of the motion model -/

/-- The position written by `predictSigmaPoint` is the curved path when
`fabs(yawd) > 1e-6` and the straight line otherwise, plus the noise term. -/
theorem predictSigmaPoint_position (E : Env α) (dt : α) (xa : Fin 7 → α) :
    predictSigmaPoint E dt xa 0 =
        (if |xa 4| > 1e-6 then (curvedPath E (xa 0) (xa 1) (xa 2) (xa 3) (xa 4) dt).1
          else (straightPath E (xa 0) (xa 1) (xa 2) (xa 3) dt).1)
          + 0.5 * xa 5 * dt * dt * E.cos (xa 3) ∧
      predictSigmaPoint E dt xa 1 =
        (if |xa 4| > 1e-6 then (curvedPath E (xa 0) (xa 1) (xa 2) (xa 3) (xa 4) dt).2
          else (straightPath E (xa 0) (xa 1) (xa 2) (xa 3) dt).2)
          + 0.5 * xa 5 * dt * dt * E.sin (xa 3) :=
  ⟨rfl, rfl⟩

/-- The cosine is 1-Lipschitz. -/
theorem abs_cos_sub_cos_le (x y : ℝ) : |Real.cos x - Real.cos y| ≤ |x - y| := by
  rw [Real.cos_sub_cos, abs_mul, abs_mul]
  have h1 : |Real.sin ((x + y) / 2)| ≤ 1 := Real.abs_sin_le_one _
  have h2 : |Real.sin ((x - y) / 2)| ≤ |(x - y) / 2| := Real.abs_sin_le_abs
  have h3 : |(x - y) / 2| = |x - y| / 2 := by rw [abs_div, abs_two]
  have h4 : |(-2 : ℝ)| = 2 := by norm_num
  rw [h4]
  have h5 := abs_nonneg (Real.sin ((x + y) / 2))
  have h6 := abs_nonneg (Real.sin ((x - y) / 2))
  nlinarith

/-- Second-order remainder of the sine, for a non-negative step. -/
theorem sin_remainder_of_nonneg (a : ℝ) {s : ℝ} (hs : 0 ≤ s) :
    |Real.sin (a + s) - Real.sin a - s * Real.cos a| ≤ s ^ 2 / 2 := by
  have hd1 : ∀ x : ℝ, HasDerivAt (fun t => t ^ 2 / 2 - (Real.sin (a + t) - Real.sin a - t * Real.cos a))
      (x - (Real.cos (a + x) - Real.cos a)) x := by
    intro x
    have h1 : HasDerivAt (fun t : ℝ => a + t) 1 x := by
      simpa using (hasDerivAt_id x).const_add a
    have h2 : HasDerivAt (fun t : ℝ => Real.sin (a + t)) (Real.cos (a + x) * 1) x :=
      (Real.hasDerivAt_sin (a + x)).comp x h1
    have h3 : HasDerivAt (fun t : ℝ => t ^ 2 / 2) (2 * x ^ 1 / 2) x := by
      simpa using ((hasDerivAt_pow 2 x).div_const 2)
    have h4 : HasDerivAt (fun t : ℝ => t * Real.cos a) (1 * Real.cos a) x :=
      (hasDerivAt_id x).mul_const _
    have h5 := h3.sub ((h2.sub_const (Real.sin a)).sub h4)
    convert h5 using 1
    ring
  have hd2 : ∀ x : ℝ, HasDerivAt (fun t => t ^ 2 / 2 + (Real.sin (a + t) - Real.sin a - t * Real.cos a))
      (x + (Real.cos (a + x) - Real.cos a)) x := by
    intro x
    have h1 : HasDerivAt (fun t : ℝ => a + t) 1 x := by
      simpa using (hasDerivAt_id x).const_add a
    have h2 : HasDerivAt (fun t : ℝ => Real.sin (a + t)) (Real.cos (a + x) * 1) x :=
      (Real.hasDerivAt_sin (a + x)).comp x h1
    have h3 : HasDerivAt (fun t : ℝ => t ^ 2 / 2) (2 * x ^ 1 / 2) x := by
      simpa using ((hasDerivAt_pow 2 x).div_const 2)
    have h4 : HasDerivAt (fun t : ℝ => t * Real.cos a) (1 * Real.cos a) x :=
      (hasDerivAt_id x).mul_const _
    have h5 := h3.add ((h2.sub_const (Real.sin a)).sub h4)
    convert h5 using 1
    ring
  have hlip : ∀ x : ℝ, 0 ≤ x → |Real.cos (a + x) - Real.cos a| ≤ x := by
    intro x hx
    have := abs_cos_sub_cos_le (a + x) a
    rwa [add_sub_cancel_left, abs_of_nonneg hx] at this
  have m1 : MonotoneOn (fun t => t ^ 2 / 2 - (Real.sin (a + t) - Real.sin a - t * Real.cos a))
      (Set.Ici 0) := by
    apply monotoneOn_of_deriv_nonneg (convex_Ici 0)
    · exact fun x _ => (hd1 x).continuousAt.continuousWithinAt
    · exact fun x _ => (hd1 x).differentiableAt.differentiableWithinAt
    · intro x hx
      rw [interior_Ici] at hx
      rw [(hd1 x).deriv]
      have := hlip x (le_of_lt hx)
      have := abs_le.mp this
      linarith [this.2]
  have m2 : MonotoneOn (fun t => t ^ 2 / 2 + (Real.sin (a + t) - Real.sin a - t * Real.cos a))
      (Set.Ici 0) := by
    apply monotoneOn_of_deriv_nonneg (convex_Ici 0)
    · exact fun x _ => (hd2 x).continuousAt.continuousWithinAt
    · exact fun x _ => (hd2 x).differentiableAt.differentiableWithinAt
    · intro x hx
      rw [interior_Ici] at hx
      rw [(hd2 x).deriv]
      have := hlip x (le_of_lt hx)
      have := abs_le.mp this
      linarith [this.1]
  have k1 := m1 (Set.mem_Ici.mpr (le_refl (0 : ℝ))) (Set.mem_Ici.mpr hs) hs
  have k2 := m2 (Set.mem_Ici.mpr (le_refl (0 : ℝ))) (Set.mem_Ici.mpr hs) hs
  simp only [add_zero, zero_mul, sub_self, sub_zero] at k1 k2
  norm_num at k1 k2
  rw [abs_le]
  constructor <;> linarith

/-- Second-order remainder of the sine: `|sin(a+h) - sin a - h cos a| ≤ h²/2`. -/
theorem sin_remainder (a h : ℝ) :
    |Real.sin (a + h) - Real.sin a - h * Real.cos a| ≤ h ^ 2 / 2 := by
  rcases le_total 0 h with hh | hh
  · exact sin_remainder_of_nonneg a hh
  · have k := sin_remainder_of_nonneg (-a) (neg_nonneg.mpr hh)
    have e : Real.sin (-a + -h) - Real.sin (-a) - -h * Real.cos (-a) =
        -(Real.sin (a + h) - Real.sin a - h * Real.cos a) := by
      rw [← neg_add, Real.sin_neg, Real.sin_neg, Real.cos_neg]
      ring
    rw [e, abs_neg, neg_sq] at k
    exact k

/-- Second-order remainder of the cosine: `|cos(a+h) - cos a + h sin a| ≤ h²/2`. -/
theorem cos_remainder (a h : ℝ) :
    |Real.cos (a + h) - Real.cos a + h * Real.sin a| ≤ h ^ 2 / 2 := by
  have k := sin_remainder (a + Real.pi / 2) h
  have e : Real.sin (a + Real.pi / 2 + h) - Real.sin (a + Real.pi / 2)
      - h * Real.cos (a + Real.pi / 2) = Real.cos (a + h) - Real.cos a + h * Real.sin a := by
    rw [show a + Real.pi / 2 + h = a + h + Real.pi / 2 by ring, Real.sin_add_pi_div_two,
      Real.sin_add_pi_div_two, Real.cos_add_pi_div_two]
    ring
  rwa [e] at k

/-- For a non-zero yaw rate `w` the curved path and the straight line differ by
at most `|v| |w| dt² / 2` in each coordinate. -/
theorem curvedPath_sub_straightPath (llt : Matrix (Fin 7) (Fin 7) ℝ → LLT ℝ)
    (px py v yaw w dt : ℝ) (hw : w ≠ 0) :
    |(curvedPath (realEnv llt) px py v yaw w dt).1 - (straightPath (realEnv llt) px py v yaw dt).1|
        ≤ |v| * |w| * dt ^ 2 / 2 ∧
      |(curvedPath (realEnv llt) px py v yaw w dt).2
          - (straightPath (realEnv llt) px py v yaw dt).2| ≤ |v| * |w| * dt ^ 2 / 2 := by
  have hw0 : 0 < |w| := abs_pos.mpr hw
  have key : ∀ r : ℝ, |r| ≤ (w * dt) ^ 2 / 2 → |v / w * r| ≤ |v| * |w| * dt ^ 2 / 2 := by
    intro r hr
    rw [abs_mul, abs_div]
    have h1 : |v| / |w| * |r| ≤ |v| / |w| * ((w * dt) ^ 2 / 2) :=
      mul_le_mul_of_nonneg_left hr (div_nonneg (abs_nonneg v) hw0.le)
    have h2 : |v| / |w| * ((w * dt) ^ 2 / 2) = |v| * |w| * dt ^ 2 / 2 := by
      have h3 : w ^ 2 = |w| ^ 2 := (sq_abs w).symm
      field_simp
      linear_combination (2 * |v| * dt ^ 2) * h3
    rw [h2] at h1
    exact h1
  constructor
  · have e : (curvedPath (realEnv llt) px py v yaw w dt).1
        - (straightPath (realEnv llt) px py v yaw dt).1 =
        v / w * (Real.sin (yaw + w * dt) - Real.sin yaw - w * dt * Real.cos yaw) := by
      simp only [curvedPath, straightPath, realEnv]
      field_simp
      ring
    rw [e]
    exact key _ (sin_remainder yaw (w * dt))
  · have e : (curvedPath (realEnv llt) px py v yaw w dt).2
        - (straightPath (realEnv llt) px py v yaw dt).2 =
        v / w * (-(Real.cos (yaw + w * dt) - Real.cos yaw + w * dt * Real.sin yaw)) := by
      simp only [curvedPath, straightPath, realEnv]
      field_simp
      ring
    rw [e]
    refine key _ ?_
    rw [abs_neg]
    exact cos_remainder yaw (w * dt)

/-- Counterexample to C14: at speed 30, heading `π/2` and a time step of 100 s
the curved path at yaw rate `1e-6` and the straight line differ in the first
coordinate by more than `1e-3` (by about 0.15). -/
theorem branch_gap_exceeds_tolerance :
    ¬ (|(curvedPath env0 0 0 30 (Real.pi / 2) 1e-6 100).1
        - (straightPath env0 0 0 30 (Real.pi / 2) 100).1| ≤ 1e-3) := by
  have e : (curvedPath env0 0 0 30 (Real.pi / 2) 1e-6 100).1
      - (straightPath env0 0 0 30 (Real.pi / 2) 100).1 =
      30 / 1e-6 * (Real.cos (1e-4) - 1) := by
    have h1 : Real.sin (Real.pi / 2 + 1e-6 * 100) = Real.cos (1e-4) := by
      rw [add_comm, Real.sin_add_pi_div_two]
      norm_num
    simp only [curvedPath, straightPath, env0, realEnv, h1, Real.sin_pi_div_two,
      Real.cos_pi_div_two]
    ring
  have hb := Real.cos_bound (x := 1e-4) (by rw [abs_of_nonneg] <;> norm_num)
  have hb2 := (abs_le.mp hb).2
  have hx : |(1e-4 : ℝ)| = 1e-4 := abs_of_nonneg (by norm_num)
  rw [hx] at hb2
  rw [e]
  intro h
  have h2 := (abs_le.mp h).1
  norm_num at hb2 h2
  linarith

/-- C14, amended: the curved path evaluated at yaw rate `1e-6` and the straight
line differ by at most `|v| * 1e-6 * dt² / 2` in each coordinate, hence by at
most `1e-3` whenever `|v| * dt² ≤ 2000`. -/
theorem branch_gap_bound (llt : Matrix (Fin 7) (Fin 7) ℝ → LLT ℝ) (px py v yaw delta_t : ℝ)
    (h : |v| * delta_t ^ 2 ≤ 2000) :
    |(curvedPath (realEnv llt) px py v yaw 1e-6 delta_t).1
        - (straightPath (realEnv llt) px py v yaw delta_t).1| ≤ |v| * 1e-6 * delta_t ^ 2 / 2 ∧
      |(curvedPath (realEnv llt) px py v yaw 1e-6 delta_t).2
        - (straightPath (realEnv llt) px py v yaw delta_t).2| ≤ |v| * 1e-6 * delta_t ^ 2 / 2 ∧
      |(curvedPath (realEnv llt) px py v yaw 1e-6 delta_t).1
        - (straightPath (realEnv llt) px py v yaw delta_t).1| ≤ 1e-3 ∧
      |(curvedPath (realEnv llt) px py v yaw 1e-6 delta_t).2
        - (straightPath (realEnv llt) px py v yaw delta_t).2| ≤ 1e-3 := by
  have hw : |(1e-6 : ℝ)| = 1e-6 := abs_of_nonneg (by norm_num)
  obtain ⟨h1, h2⟩ := curvedPath_sub_straightPath llt px py v yaw 1e-6 delta_t (by norm_num)
  rw [hw] at h1 h2
  have h3 : |v| * 1e-6 * delta_t ^ 2 / 2 ≤ 1e-3 := by
    have : |v| * 1e-6 * delta_t ^ 2 / 2 = (|v| * delta_t ^ 2) * (1e-6 / 2) := by ring
    rw [this]
    norm_num
    linarith
  exact ⟨h1, h2, h1.trans h3, h2.trans h3⟩

/-- Witness of C14 (amended): speed 1, heading 0 and a time step of one
second. -/
theorem branch_gap_bound_witness :
    |(1 : ℝ)| * 1 ^ 2 ≤ 2000 ∧
    |(curvedPath env0 0 0 1 0 1e-6 1).1 - (straightPath env0 0 0 1 0 1).1| ≤ 1e-3 ∧
    |(curvedPath env0 0 0 1 0 1e-6 1).2 - (straightPath env0 0 0 1 0 1).2| ≤ 1e-3 :=
  ⟨by norm_num, (branch_gap_bound (lltConst ctorCholesky) 0 0 1 0 1 (by norm_num)).2.2.1,
    (branch_gap_bound (lltConst ctorCholesky) 0 0 1 0 1 (by norm_num)).2.2.2⟩

end UKF

namespace UKF

variable {α : Type} [LinearOrderedField α]

/-- C15: after construction the state dimension is 5, the augmented dimension
is 7, `lambda_` is `3 - 7 = -4`, there are `2 * 7 + 1 = 15` sigma-point weights
(the index type of `weights_`), the centre weight is
`lambda_ / (lambda_ + n_aug_) = -4/3` and each of the other fourteen is
`0.5 / (lambda_ + n_aug_) = 1 / (2 (lambda_ + n_aug_)) = 1/6`. -/
theorem ctor_parameters :
    (ctor : UKF α).n_x_ = 5 ∧ (ctor : UKF α).n_aug_ = 7 ∧
    (ctor : UKF α).lambda_ = 3 - 7 ∧ (ctor : UKF α).lambda_ = -4 ∧
    2 * (ctor : UKF α).n_aug_ + 1 = 15 ∧ Fintype.card (Fin 15) = 15 ∧
    (ctor : UKF α).weights_ 0 =
      (ctor : UKF α).lambda_ / ((ctor : UKF α).lambda_ + ((ctor : UKF α).n_aug_ : α)) ∧
    (ctor : UKF α).weights_ 0 = -4 / 3 ∧
    (∀ j : Fin 14, (ctor : UKF α).weights_ j.succ =
      1 / (2 * ((ctor : UKF α).lambda_ + ((ctor : UKF α).n_aug_ : α)))) ∧
    (∀ j : Fin 14, (ctor : UKF α).weights_ j.succ = 1 / 6) := by
  have hl : (ctor : UKF α).lambda_ = -4 := by
    simp only [ctor]
    norm_num
  have hn : ((ctor : UKF α).n_aug_ : α) = 7 := by
    simp only [ctor]
    norm_num
  refine ⟨rfl, rfl, ?_, hl, rfl, by simp, rfl, ?_, ?_, ?_⟩
  · rw [hl]
    norm_num
  · rw [ctor_weights, if_pos rfl]
    norm_num
  · intro j
    rw [ctor_weights, if_neg (Fin.succ_ne_zero j), hl, hn]
    norm_num
  · intro j
    rw [ctor_weights, if_neg (Fin.succ_ne_zero j)]

/-- C18: with the constructor's weights, whatever factor `llt()` returns and
whatever the covariance and the time step, the mean written by `Prediction`
has speed `v`, yaw rate `yawd` and heading `yaw + yawd * delta_t`, unwrapped. -/
theorem Prediction_mean_linear_components [FloorRing α] (E : Env α) (s : UKF α) (delta_t : α)
    (hw : s.weights_ = (ctor : UKF α).weights_) :
    (Prediction E s delta_t).x_ 2 = s.x_ 2 ∧ (Prediction E s delta_t).x_ 4 = s.x_ 4 ∧
      (Prediction E s delta_t).x_ 3 = s.x_ 3 + s.x_ 4 * delta_t := by
  refine ⟨?_, ?_, Prediction_mean_heading E s delta_t hw⟩
  · have e : (Prediction E s delta_t).x_ 2 =
        ∑ i : Fin 15, s.weights_ i * Xsig_aug E s 2 i
          + (∑ i : Fin 15, s.weights_ i * Xsig_aug E s 5 i) * delta_t := by
      simp only [Prediction, predictSigmaPoints, predictSigmaPoint_two, Finset.sum_mul,
        ← Finset.sum_add_distrib]
      exact Finset.sum_congr rfl (fun i _ => by ring)
    rw [e, weighted_mean_Xsig_aug E s hw, weighted_mean_Xsig_aug E s hw]
    simp +decide [x_aug]
  · have e : (Prediction E s delta_t).x_ 4 =
        ∑ i : Fin 15, s.weights_ i * Xsig_aug E s 4 i
          + (∑ i : Fin 15, s.weights_ i * Xsig_aug E s 6 i) * delta_t := by
      simp only [Prediction, predictSigmaPoints, predictSigmaPoint_four, Finset.sum_mul,
        ← Finset.sum_add_distrib]
      exact Finset.sum_congr rfl (fun i _ => by ring)
    rw [e, weighted_mean_Xsig_aug E s hw, weighted_mean_Xsig_aug E s hw]
    simp +decide [x_aug]
    rfl

/-- Witness of C18: `turningState`, with speed 0, heading 3 and yaw rate 1,
over two seconds, with the factor `skewCholesky` that does not belong to its
covariance. -/
theorem Prediction_mean_linear_components_witness :
    (turningState : UKF ℝ).weights_ = (ctor : UKF ℝ).weights_ ∧
    (Prediction (realEnv (lltConst (skewCholesky (Real.sqrt 3) Real.pi))) turningState 2).x_ 2
      = 0 ∧
    (Prediction (realEnv (lltConst (skewCholesky (Real.sqrt 3) Real.pi))) turningState 2).x_ 4
      = 1 ∧
    (Prediction (realEnv (lltConst (skewCholesky (Real.sqrt 3) Real.pi))) turningState 2).x_ 3
      = 3 + 1 * 2 :=
  ⟨rfl,
    (Prediction_mean_linear_components
      (realEnv (lltConst (skewCholesky (Real.sqrt 3) Real.pi))) turningState 2 rfl).1,
    (Prediction_mean_linear_components
      (realEnv (lltConst (skewCholesky (Real.sqrt 3) Real.pi))) turningState 2 rfl).2.1,
    (Prediction_mean_linear_components
      (realEnv (lltConst (skewCholesky (Real.sqrt 3) Real.pi))) turningState 2 rfl).2.2⟩

end UKF

namespace UKF

/-- C16: for a symmetric positive semi-definite covariance `P` and the
constructor's laser noise 0.15, the innovation covariance `S = H P Hᵀ + R` of
`UpdateLidar` is the top-left 2x2 block of `P` plus `diag(0.15², 0.15²)`, its
determinant is strictly positive, and `inverse S` is a two-sided inverse. -/
theorem S_laser_invertible (s : UKF ℝ) (hP : s.P_.PosSemidef) (hx : s.std_laspx_ = 0.15)
    (hy : s.std_laspy_ = 0.15) :
    (H_laser : Matrix (Fin 2) (Fin 5) ℝ) * s.P_ * (H_laser : Matrix (Fin 2) (Fin 5) ℝ)ᵀ
        + R_laser s =
      !![s.P_ 0 0 + 0.15 ^ 2, s.P_ 0 1; s.P_ 1 0, s.P_ 1 1 + 0.15 ^ 2] ∧
    0 < ((H_laser : Matrix (Fin 2) (Fin 5) ℝ) * s.P_ * (H_laser : Matrix (Fin 2) (Fin 5) ℝ)ᵀ
        + R_laser s).det ∧
    ((H_laser : Matrix (Fin 2) (Fin 5) ℝ) * s.P_ * (H_laser : Matrix (Fin 2) (Fin 5) ℝ)ᵀ
        + R_laser s) *
      inverse ((H_laser : Matrix (Fin 2) (Fin 5) ℝ) * s.P_ *
        (H_laser : Matrix (Fin 2) (Fin 5) ℝ)ᵀ + R_laser s) = 1 ∧
    inverse ((H_laser : Matrix (Fin 2) (Fin 5) ℝ) * s.P_ *
        (H_laser : Matrix (Fin 2) (Fin 5) ℝ)ᵀ + R_laser s) *
      ((H_laser : Matrix (Fin 2) (Fin 5) ℝ) * s.P_ * (H_laser : Matrix (Fin 2) (Fin 5) ℝ)ᵀ
        + R_laser s) = 1 := by
  have hx0 : s.std_laspx_ ≠ 0 := by rw [hx]; norm_num
  have hy0 : s.std_laspy_ ≠ 0 := by rw [hy]; norm_num
  have hS := S_laser_posDef s hP hx0 hy0
  have hdet := hS.det_pos
  have hunit : IsUnit ((H_laser : Matrix (Fin 2) (Fin 5) ℝ) * s.P_ *
      (H_laser : Matrix (Fin 2) (Fin 5) ℝ)ᵀ + R_laser s).det := hdet.ne'.isUnit
  refine ⟨?_, hdet, ?_, ?_⟩
  · ext i j
    fin_cases i <;> fin_cases j <;>
      simp +decide [Matrix.mul_apply, Fin.sum_univ_five, H_laser, R_laser, hx, hy, pow_two]
  · rw [inverse_eq_inv, Matrix.mul_nonsing_inv _ hunit]
  · rw [inverse_eq_inv, Matrix.nonsing_inv_mul _ hunit]

/-- Witness of C16: the constructed estimator, whose covariance is the
identity. -/
theorem S_laser_invertible_witness :
    (ctor : UKF ℝ).P_.PosSemidef ∧ (ctor : UKF ℝ).std_laspx_ = 0.15 ∧
    (ctor : UKF ℝ).std_laspy_ = 0.15 ∧
    0 < ((H_laser : Matrix (Fin 2) (Fin 5) ℝ) * (ctor : UKF ℝ).P_ *
        (H_laser : Matrix (Fin 2) (Fin 5) ℝ)ᵀ + R_laser (ctor : UKF ℝ)).det :=
  ⟨Matrix.PosSemidef.one, rfl, rfl,
    (S_laser_invertible (ctor : UKF ℝ) Matrix.PosSemidef.one rfl rfl).2.1⟩

/-- C19: for every predicted sigma point `(px, py, v, yaw, yawd)` the range
computed by `UpdateRadar` is `sqrt(px² + py²) ≥ 0`; the range rate is 0 when
the range is at most `1e-6` (no division takes place) and
`(px v cos yaw + py v sin yaw) / range` otherwise; and its magnitude is at most
`|v|`. -/
theorem radar_range_rate_bounded (llt : Matrix (Fin 7) (Fin 7) ℝ → LLT ℝ) (xs : Fin 5 → ℝ) :
    radarSigmaPoint (realEnv llt) xs 0 = Real.sqrt (xs 0 ^ 2 + xs 1 ^ 2) ∧
    0 ≤ radarSigmaPoint (realEnv llt) xs 0 ∧
    radarSigmaPoint (realEnv llt) xs 2 =
      (if radarSigmaPoint (realEnv llt) xs 0 ≤ 1e-6 then 0
        else (xs 0 * xs 2 * Real.cos (xs 3) + xs 1 * xs 2 * Real.sin (xs 3))
          / radarSigmaPoint (realEnv llt) xs 0) ∧
    |radarSigmaPoint (realEnv llt) xs 2| ≤ |xs 2| := by
  have e0 : radarSigmaPoint (realEnv llt) xs 0 = Real.sqrt (xs 0 ^ 2 + xs 1 ^ 2) := by
    show Real.sqrt (xs 0 * xs 0 + xs 1 * xs 1) = Real.sqrt (xs 0 ^ 2 + xs 1 ^ 2)
    rw [pow_two, pow_two]
  have e2 : radarSigmaPoint (realEnv llt) xs 2 =
      (if radarSigmaPoint (realEnv llt) xs 0 ≤ 1e-6 then 0
        else (xs 0 * xs 2 * Real.cos (xs 3) + xs 1 * xs 2 * Real.sin (xs 3))
          / radarSigmaPoint (realEnv llt) xs 0) := by
    show (if Real.sqrt (xs 0 * xs 0 + xs 1 * xs 1) > 1e-6 then
        (xs 0 * (Real.cos (xs 3) * xs 2) + xs 1 * (Real.sin (xs 3) * xs 2))
          / Real.sqrt (xs 0 * xs 0 + xs 1 * xs 1) else 0) = _
    rw [e0, pow_two, pow_two]
    by_cases h : Real.sqrt (xs 0 * xs 0 + xs 1 * xs 1) ≤ 1e-6
    · rw [if_neg (not_lt.mpr h), if_pos h]
    · rw [if_pos (not_le.mp h), if_neg h]
      congr 1
      ring
  refine ⟨e0, ?_, e2, ?_⟩
  · rw [e0]
    exact Real.sqrt_nonneg _
  · rw [e2, e0]
    split_ifs with h
    · rw [abs_zero]
      exact abs_nonneg _
    · have hr : 0 < Real.sqrt (xs 0 ^ 2 + xs 1 ^ 2) := by
        have : (0 : ℝ) < 1e-6 := by norm_num
        linarith [not_le.mp h]
      have hcs : |xs 0 * Real.cos (xs 3) + xs 1 * Real.sin (xs 3)|
          ≤ Real.sqrt (xs 0 ^ 2 + xs 1 ^ 2) := by
        apply Real.abs_le_sqrt
        have := Real.sin_sq_add_cos_sq (xs 3)
        nlinarith [sq_nonneg (xs 0 * Real.sin (xs 3) - xs 1 * Real.cos (xs 3))]
      have e : xs 0 * xs 2 * Real.cos (xs 3) + xs 1 * xs 2 * Real.sin (xs 3) =
          xs 2 * (xs 0 * Real.cos (xs 3) + xs 1 * Real.sin (xs 3)) := by ring
      rw [e, abs_div, abs_mul, abs_of_pos hr, div_le_iff₀ hr]
      exact mul_le_mul_of_nonneg_left hcs (abs_nonneg _)

end UKF

namespace UKF

variable {α : Type} [LinearOrderedField α]

/-! ### Prediction over a zero time step -/

/-- Over a zero time step the predicted sigma points are the state part of the
augmented sigma points. -/
theorem Prediction_zero_dt_sigma [FloorRing α] (E : Env α) (s : UKF α) (r : Fin 5)
    (i : Fin 15) :
    (Prediction E s 0).Xsig_pred_ r i = Xsig_aug E s (Fin.castLE (by decide) r) i := by
  simp only [Prediction, predictSigmaPoints, predictSigmaPoint_zero_dt]
  fin_cases r <;> rfl

/-- Over a zero time step, with the constructor's weights, `Prediction` leaves
the mean alone. -/
theorem Prediction_zero_dt_mean [FloorRing α] (E : Env α) (s : UKF α)
    (hw : s.weights_ = (ctor : UKF α).weights_) : (Prediction E s 0).x_ = s.x_ := by
  funext r
  have e : (Prediction E s 0).x_ r =
      ∑ i : Fin 15, s.weights_ i * Xsig_aug E s (Fin.castLE (by decide) r) i := by
    simp only [Prediction, predictSigmaPoints, predictSigmaPoint_zero_dt]
    fin_cases r <;> rfl
  rw [e, weighted_mean_Xsig_aug E s hw]
  fin_cases r <;> rfl

/-- An augmented sigma point differs from the augmented mean by nothing, or by
plus or minus a scaled column of the factor. -/
theorem Xsig_aug_sub_x_aug (E : Env α) (s : UKF α) (k : Fin 7) (i : Fin 15) :
    ∃ j : Fin 7,
      Xsig_aug E s k i - x_aug s k = 0 ∨
      Xsig_aug E s k i - x_aug s k =
        E.sqrt (s.lambda_ + (s.n_aug_ : α)) * (E.llt (P_aug s)).matrixL k j ∨
      Xsig_aug E s k i - x_aug s k =
        -(E.sqrt (s.lambda_ + (s.n_aug_ : α)) * (E.llt (P_aug s)).matrixL k j) := by
  unfold Xsig_aug
  by_cases h0 : i.val = 0
  · exact ⟨0, Or.inl (by simp [h0])⟩
  · by_cases h7 : i.val ≤ 7
    · exact ⟨⟨i.val - 1, by omega⟩, Or.inr (Or.inl (by simp [h0, h7]))⟩
    · exact ⟨⟨i.val - 1 - 7, by omega⟩, Or.inr (Or.inr (by simp [h0, h7]))⟩

/-- With the constructor's weights, the weighted sum of the products of the
deviations of the augmented sigma points is `c² / 3` times `L Lᵀ`, for
`c = sqrt(lambda_ + n_aug_)`. -/
theorem weighted_outer_Xsig_aug (E : Env α) (s : UKF α)
    (hw : s.weights_ = (ctor : UKF α).weights_) (k l : Fin 7) :
    ∑ i : Fin 15, s.weights_ i *
        ((Xsig_aug E s k i - x_aug s k) * (Xsig_aug E s l i - x_aug s l)) =
      E.sqrt (s.lambda_ + (s.n_aug_ : α)) * E.sqrt (s.lambda_ + (s.n_aug_ : α)) / 3 *
        ((E.llt (P_aug s)).matrixL * ((E.llt (P_aug s)).matrixL)ᵀ) k l := by
  rw [hw, sum_ctor_weights]
  obtain ⟨p0, p1, p2, p3, p4, p5, p6, q0, q1, q2, q3, q4, q5, q6⟩ :=
    Xsig_aug_cols E s k _ _ rfl rfl
  obtain ⟨a0, a1, a2, a3, a4, a5, a6, b0, b1, b2, b3, b4, b5, b6⟩ :=
    Xsig_aug_cols E s l _ _ rfl rfl
  rw [Xsig_aug_zero, Xsig_aug_zero, p0, p1, p2, p3, p4, p5, p6, q0, q1, q2, q3, q4, q5, q6,
    a0, a1, a2, a3, a4, a5, a6, b0, b1, b2, b3, b4, b5, b6, Matrix.mul_apply,
    Fin.sum_univ_seven]
  simp only [Matrix.transpose_apply]
  ring

/-- The heading residual is left alone by `x_diff` when it lies in `[-π, π]`. -/
theorem x_diff_of_mem [FloorRing α] (E : Env α) (Xsig : Matrix (Fin 5) (Fin 15) α)
    (x : Fin 5 → α) (i : Fin 15) (h1 : -E.M_PI ≤ Xsig 3 i - x 3) (h2 : Xsig 3 i - x 3 ≤ E.M_PI) :
    x_diff E Xsig x i = fun r => Xsig r i - x r := by
  unfold x_diff
  simp only
  rw [normalizeAngle_of_mem E _ h1 h2, Function.update_eq_self]

/-- C17: with the constructor's weights, `lambda_ = -4` and `n_aug_ = 7`, for a
covariance `P` with `P(3,3) ≤ π²/3` and `L = llt(P_aug).matrixL()` the Cholesky
factor of the augmented covariance (which exists exactly when `P` is symmetric
positive definite and the process noise is non-zero), `Prediction` over a zero
time step leaves the mean equal to `x` and the covariance equal to `P`. -/
theorem Prediction_zero_dt_identity (llt : Matrix (Fin 7) (Fin 7) ℝ → LLT ℝ) (s : UKF ℝ)
    (hw : s.weights_ = (ctor : UKF ℝ).weights_) (hl : s.lambda_ = -4) (hn : s.n_aug_ = 7)
    (hL : IsCholeskyFactor (llt (P_aug s)).matrixL (P_aug s))
    (hv : s.P_ 3 3 ≤ Real.pi ^ 2 / 3) :
    (Prediction (realEnv llt) s 0).x_ = s.x_ ∧ (Prediction (realEnv llt) s 0).P_ = s.P_ := by
  have hx := Prediction_zero_dt_mean (realEnv llt) s hw
  refine ⟨hx, ?_⟩
  have hc : (realEnv llt).sqrt (s.lambda_ + (s.n_aug_ : ℝ)) = Real.sqrt 3 := by
    rw [hl, hn]
    show Real.sqrt (-4 + ((7 : ℤ) : ℝ)) = Real.sqrt 3
    norm_num
  have hcc : Real.sqrt 3 * Real.sqrt 3 = 3 := Real.mul_self_sqrt (by norm_num)
  have hLL := hL.2.2
  -- every scaled entry of row 3 of the factor is at most π in magnitude
  have hb : ∀ j : Fin 7, |Real.sqrt 3 * (llt (P_aug s)).matrixL 3 j| ≤ Real.pi := by
    intro j
    have h33 : ((llt (P_aug s)).matrixL * ((llt (P_aug s)).matrixL)ᵀ) 3 3 = s.P_ 3 3 := by
      rw [hLL]
      rfl
    rw [Matrix.mul_apply] at h33
    have hle : (llt (P_aug s)).matrixL 3 j * (llt (P_aug s)).matrixL 3 j ≤ s.P_ 3 3 := by
      rw [← h33]
      exact Finset.single_le_sum
        (f := fun j => (llt (P_aug s)).matrixL 3 j * ((llt (P_aug s)).matrixL)ᵀ j 3)
        (fun j _ => mul_self_nonneg _) (Finset.mem_univ j)
    apply abs_le_of_sq_le_sq _ Real.pi_pos.le
    have : (Real.sqrt 3 * (llt (P_aug s)).matrixL 3 j) ^ 2 =
        3 * ((llt (P_aug s)).matrixL 3 j * (llt (P_aug s)).matrixL 3 j) := by
      rw [mul_pow, pow_two, hcc]
      ring
    rw [this]
    linarith
  -- so no heading residual is wrapped
  have hd : ∀ i : Fin 15,
      x_diff (realEnv llt) (Prediction (realEnv llt) s 0).Xsig_pred_
          (Prediction (realEnv llt) s 0).x_ i =
        fun r => Xsig_aug (realEnv llt) s (Fin.castLE (by decide) r) i
          - x_aug s (Fin.castLE (by decide) r) := by
    intro i
    have e : ∀ r : Fin 5, (Prediction (realEnv llt) s 0).Xsig_pred_ r i
        - (Prediction (realEnv llt) s 0).x_ r =
        Xsig_aug (realEnv llt) s (Fin.castLE (by decide) r) i
          - x_aug s (Fin.castLE (by decide) r) := by
      intro r
      rw [Prediction_zero_dt_sigma, hx]
      fin_cases r <;> rfl
    have hm : |(Prediction (realEnv llt) s 0).Xsig_pred_ 3 i
        - (Prediction (realEnv llt) s 0).x_ 3| ≤ Real.pi := by
      rw [e 3]
      obtain ⟨j, h | h | h⟩ := Xsig_aug_sub_x_aug (realEnv llt) s 3 i
      · have h' : Xsig_aug (realEnv llt) s (Fin.castLE (by decide) (3 : Fin 5)) i
            - x_aug s (Fin.castLE (by decide) (3 : Fin 5)) = 0 := h
        rw [h', abs_zero]
        exact Real.pi_pos.le
      · have h' : Xsig_aug (realEnv llt) s (Fin.castLE (by decide) (3 : Fin 5)) i
            - x_aug s (Fin.castLE (by decide) (3 : Fin 5)) = _ := h
        rw [h', hc]
        exact hb j
      · have h' : Xsig_aug (realEnv llt) s (Fin.castLE (by decide) (3 : Fin 5)) i
            - x_aug s (Fin.castLE (by decide) (3 : Fin 5)) = _ := h
        rw [h', hc, abs_neg]
        exact hb j
    rw [x_diff_of_mem (realEnv llt) _ _ i (abs_le.mp hm).1 (abs_le.mp hm).2]
    funext r
    exact e r
  ext r c
  have eP : (Prediction (realEnv llt) s 0).P_ r c =
      ∑ i : Fin 15, s.weights_ i *
        (x_diff (realEnv llt) (Prediction (realEnv llt) s 0).Xsig_pred_
            (Prediction (realEnv llt) s 0).x_ i r *
          x_diff (realEnv llt) (Prediction (realEnv llt) s 0).Xsig_pred_
            (Prediction (realEnv llt) s 0).x_ i c) := by
    simp only [Prediction, Matrix.sum_apply, Matrix.smul_apply, vecMulVec_apply, smul_eq_mul]
  rw [eP]
  simp only [hd]
  rw [weighted_outer_Xsig_aug (realEnv llt) s hw, hc, hcc]
  have hLL' : ((realEnv llt).llt (P_aug s)).matrixL * (((realEnv llt).llt (P_aug s)).matrixL)ᵀ
      = P_aug s := hLL
  rw [hLL']
  norm_num
  fin_cases r <;> fin_cases c <;> rfl

/-- Witness of C17: the constructed estimator, whose covariance is the
identity, with its Cholesky factor `ctorCholesky`. -/
theorem Prediction_zero_dt_identity_witness :
    (ukfStarted : UKF ℝ).weights_ = (ctor : UKF ℝ).weights_ ∧
    (ukfStarted : UKF ℝ).lambda_ = -4 ∧ (ukfStarted : UKF ℝ).n_aug_ = 7 ∧
    IsCholeskyFactor (lltConst (ctorCholesky : Matrix (Fin 7) (Fin 7) ℝ)
      (P_aug (ukfStarted : UKF ℝ))).matrixL (P_aug (ukfStarted : UKF ℝ)) ∧
    (ukfStarted : UKF ℝ).P_ 3 3 ≤ Real.pi ^ 2 / 3 ∧
    (Prediction env0 ukfStarted 0).x_ = (ukfStarted : UKF ℝ).x_ ∧
    (Prediction env0 ukfStarted 0).P_ = (ukfStarted : UKF ℝ).P_ := by
  have hl : (ukfStarted : UKF ℝ).lambda_ = -4 := by
    simp only [ukfStarted, ctor]
    norm_num
  have hL : IsCholeskyFactor (lltConst (ctorCholesky : Matrix (Fin 7) (Fin 7) ℝ)
      (P_aug (ukfStarted : UKF ℝ))).matrixL (P_aug (ukfStarted : UKF ℝ)) :=
    ctorCholesky_isCholeskyFactor ukfStarted rfl rfl rfl
  have hv : (ukfStarted : UKF ℝ).P_ 3 3 ≤ Real.pi ^ 2 / 3 := by
    have e : (ukfStarted : UKF ℝ).P_ 3 3 = 1 := by
      show (1 : Matrix (Fin 5) (Fin 5) ℝ) 3 3 = 1
      simp
    have := Real.pi_gt_three
    rw [e]
    nlinarith
  exact ⟨rfl, hl, rfl, hL, hv,
    Prediction_zero_dt_identity (lltConst ctorCholesky) ukfStarted rfl hl rfl hL hv⟩

end UKF
